import Mathlib

/-!
# Verification of the contact-search query compiler (temba/contacts/search.py)

This file is a shallow embedding of the search-query compiler found in
`temba/contacts/search.py`: the PLY lexer, the yacc grammar with its precedence
declaration, the expression-tree node types (`Condition`, `BoolCombination`,
`SinglePropCombination`), the optimizer (`simplify`, `split_by_prop`), the
property resolver (`get_prop_map`) and the predicate compiler (`as_query` down
to the per-value-type parameter builders).  Django `Q` objects are embedded as
a small predicate algebra evaluated against an explicit store of contacts,
URNs, field values and administrative boundaries.

Python strings are Lean `String`s; `str.lower()` is modelled ASCII-only (the
queries and comparators the claims exercise are ASCII).  Machine-level detail
(regex engine, Django ORM) is modelled by the documented semantics of the
exact constructs the source uses: in particular Python's `re` alternation is
ordered and non-greedy across alternatives, which the lexer embedding
reproduces literally.
-/

set_option maxHeartbeats 4000000
set_option maxRecDepth 4096

namespace TembaSearch

/-! ## Small string helpers (ASCII model of Python's str.lower and substring test) -/

/-- ASCII lower-casing of one character (model of Python `str.lower` per char). -/
def charLower (c : Char) : Char :=
  if 'A' ≤ c && c ≤ 'Z' then Char.ofNat (c.toNat + 32) else c

/-- ASCII lower-casing of a string (model of Python `str.lower()`). -/
def strLower (s : String) : String := String.mk (s.data.map charLower)

/-- Does the list start with the given pattern (helper for substring tests)? -/
def listStartsWith : List Char → List Char → Bool
  | _, [] => true
  | [], _ :: _ => false
  | c :: cs, d :: ds => c == d && listStartsWith cs ds

/-- Does the list contain the pattern as a contiguous sublist? -/
def listContainsSub : List Char → List Char → Bool
  | [], p => p.isEmpty
  | c :: rest, p => listStartsWith (c :: rest) p || listContainsSub rest p

/-- Case-insensitive containment, model of Django's `icontains` lookup. -/
def icontains (stored target : String) : Bool :=
  listContainsSub (strLower stored).data (strLower target).data

/-- Case-insensitive equality, model of Django's `iexact` lookup. -/
def iexact (stored target : String) : Bool :=
  strLower stored == strLower target

/-! ## Expression tree (QueryNode / Condition / BoolCombination / SinglePropCombination) -/

/-- The boolean operator stored on a combination (`operator.and_` / `operator.or_`). -/
inductive BOp
  | and
  | or
deriving DecidableEq, Repr

/-- A query-tree node.  `condition` is `Condition(prop, comparator, value)` (the
comparator is stored exactly as the constructor stored it, i.e. after alias
normalization when built via `Condition.__init__`); `boolComb` is
`BoolCombination(op, *children)`; `singlePropComb` is
`SinglePropCombination(prop, op, *children)`. -/
inductive QueryNode
  | condition (prop comparator value : String)
  | boolComb (op : BOp) (children : List QueryNode)
  | singlePropComb (prop : String) (op : BOp) (children : List QueryNode)
deriving Repr

mutual

/-- Structural equality of nodes (Python `__eq__` on same-class nodes). -/
def qbeq : QueryNode → QueryNode → Bool
  | .condition p c v, .condition p' c' v' => p == p' && c == c' && v == v'
  | .boolComb o cs, .boolComb o' cs' => o == o' && qbeqList cs cs'
  | .singlePropComb p o cs, .singlePropComb p' o' cs' => p == p' && o == o' && qbeqList cs cs'
  | _, _ => false

/-- Pointwise structural equality of child lists. -/
def qbeqList : List QueryNode → List QueryNode → Bool
  | [], [] => true
  | c :: cs, d :: ds => qbeq c d && qbeqList cs ds
  | _, _ => false

end

/-- Mutual structural induction over a node and its nested child lists, with
the list motive `L` given explicitly. -/
theorem queryNodeRec {P : QueryNode → Prop} {L : List QueryNode → Prop}
    (condition : ∀ p c v, P (QueryNode.condition p c v))
    (boolComb : ∀ op cs, L cs → P (QueryNode.boolComb op cs))
    (singlePropComb : ∀ p op cs, L cs → P (QueryNode.singlePropComb p op cs))
    (nil : L [])
    (cons : ∀ c cs, P c → L cs → L (c :: cs)) : ∀ t, P t :=
  fun t => @QueryNode.rec P L condition boolComb singlePropComb nil cons t

theorem qbeq_iff : ∀ a b, qbeq a b = true ↔ a = b := by
  intro a
  induction a using queryNodeRec (L := fun l => ∀ m, qbeqList l m = true ↔ l = m) with
  | condition p c v => intro b; cases b <;> simp [qbeq, and_assoc]
  | boolComb op cs ih => intro b; cases b <;> simp [qbeq, ih, and_assoc]
  | singlePropComb p op cs ih => intro b; cases b <;> simp [qbeq, ih, and_assoc]
  | nil => rename_i m; cases m <;> simp [qbeqList]
  | cons c cs ihc ihcs => rename_i m; cases m <;> simp [qbeqList, ihc, ihcs]

instance : DecidableEq QueryNode := fun a b => decidable_of_iff _ (qbeq_iff a b)

/-- `Condition.IMPLICIT_PROP` -/
def IMPLICIT_PROP : String := "*"

/-- `Condition.COMPARATOR_ALIASES = {'is': '=', 'has': '~'}` applied at
construction time by `Condition.__init__`. -/
def COMPARATOR_ALIASES (comparator : String) : String :=
  if comparator = "is" then "=" else if comparator = "has" then "~" else comparator

/-- `Condition.__init__(prop, comparator, value)`: stores the comparator after
looking it up in `COMPARATOR_ALIASES`. -/
def mkCondition (prop comparator value : String) : QueryNode :=
  .condition prop (COMPARATOR_ALIASES comparator) value

/-! ## Lexer (class SearchLexer, PLY token functions)

PLY matches, at each position, the token rules in order of definition
(`t_COMPARATOR`, `t_STRING`, `t_TEXT`, then the literal rules for parens),
using Python `re` semantics.  Whitespace in `t_ignore` is skipped, any other
unmatched character raises `SearchException("Invalid character %s")`.

The comparator regex is `(?i)~|=|[<>]=?|~~?`.  Python regex alternation is
ordered: at a `~` the first alternative `~` already matches, so the trailing
`~~?` alternative is dead and `~~` always lexes as two `~` tokens. -/

/-- Token kinds (`SearchLexer.tokens`). -/
inductive TokType
  | AND
  | OR
  | COMPARATOR
  | TEXT
  | STRING
  | LPAREN
  | RPAREN
deriving DecidableEq, Repr

/-- A lexer token: its kind and its value (`t.type`, `t.value`). -/
structure Tok where
  type : TokType
  value : String
deriving DecidableEq, Repr

/-- A character matched by the `t_TEXT` rule `[\w_\.\+\-\/]+` (with `\w`
modelled as ASCII alphanumeric or underscore; the source compiles the rule
with `re.UNICODE`, which only widens the accepted letters). -/
def isTextChar (c : Char) : Bool :=
  c.isAlphanum || c == '_' || c == '.' || c == '+' || c == '-' || c == '/'

/-- `SearchLexer.reserved` applied by `t_TEXT`: the token type of a text run
is looked up by its lower-cased value, defaulting to TEXT. -/
def reservedType (lowered : String) : TokType :=
  if lowered = "and" then .AND
  else if lowered = "or" then .OR
  else if lowered = "has" then .COMPARATOR
  else if lowered = "is" then .COMPARATOR
  else .TEXT

/-- One lexing step per recursion, fuel-bounded (the fuel is only a structural
recursion device; `tokenize` always supplies enough).  Mirrors PLY's scan:
skip blanks, then try `t_COMPARATOR` (ordered alternation of `~`, `=`,
`[<>]=?`, `~~?` — the last unreachable), then `t_STRING`, then `t_TEXT` with
the reserved-word lookup, then the paren literals; otherwise raise. -/
def lexChars : Nat → List Char → Except String (List Tok)
  | 0, _ => .error "lexer out of fuel"
  | _ + 1, [] => .ok []
  | fuel + 1, c :: cs =>
    if c == ' ' || c == '\t' then
      lexChars fuel cs
    else if c == '~' then
      -- regex alternative `~` (matches before `~~?` is ever tried)
      (lexChars fuel cs).map (fun ts => ⟨.COMPARATOR, "~"⟩ :: ts)
    else if c == '=' then
      (lexChars fuel cs).map (fun ts => ⟨.COMPARATOR, "="⟩ :: ts)
    else if c == '<' || c == '>' then
      -- regex alternative `[<>]=?` (greedy optional `=`)
      if cs.head? == some '=' then
        (lexChars fuel cs.tail).map (fun ts => ⟨.COMPARATOR, String.mk [c, '=']⟩ :: ts)
      else
        (lexChars fuel cs).map (fun ts => ⟨.COMPARATOR, String.mk [c]⟩ :: ts)
    else if c == '"' then
      -- `t_STRING`: `("[^"]*")`, value stripped of the surrounding quotes
      if (cs.dropWhile (fun d => !(d == '"'))).head? == some '"' then
        (lexChars fuel (cs.dropWhile (fun d => !(d == '"'))).tail).map
          (fun ts => ⟨.STRING, String.mk (cs.takeWhile (fun d => !(d == '"')))⟩ :: ts)
      else .error ("Invalid character " ++ String.mk [c])  -- unterminated: no rule matches `"`
    else if isTextChar c then
      let run := c :: cs.takeWhile isTextChar
      let rem := cs.dropWhile isTextChar
      (lexChars fuel rem).map
        (fun ts => ⟨reservedType (strLower (String.mk run)), String.mk run⟩ :: ts)
    else if c == '(' then
      (lexChars fuel cs).map (fun ts => ⟨.LPAREN, "("⟩ :: ts)
    else if c == ')' then
      (lexChars fuel cs).map (fun ts => ⟨.RPAREN, ")"⟩ :: ts)
    else
      .error ("Invalid character " ++ String.mk [c])

/-- Tokenize a whole query string. -/
def tokenize (s : String) : Except String (List Tok) :=
  lexChars (s.data.length + 1) s.data

/-! ## Parser (yacc grammar with the `precedence` declaration)

```
precedence = (('left', 'OR'), ('left', 'AND'))
expression : expression AND expression
           | expression OR expression
           | expression expression   %prec AND
           | LPAREN expression RPAREN
           | TEXT COMPARATOR literal
           | TEXT
literal    : TEXT | STRING
```

The embedding is an LR-style operator loop reproducing PLY's conflict
resolution exactly: a shift/reduce conflict is resolved by comparing the
lookahead token's precedence (tokens absent from the table get precedence 0)
with the rule's precedence (the rule `expression expression` has `%prec AND`);
lower token precedence means reduce, equal with `left` means reduce.  Hence
`AND` has token precedence 2 and rule precedence 2, `OR` 1 and 1, and implicit
AND (juxtaposition, signalled by a TEXT/LPAREN lookahead of precedence 0) has
rule precedence 2 but token precedence 0. -/

/-- Pending binary operator on the parse stack. -/
inductive PTok
  | pand
  | por
  | pjuxt
deriving DecidableEq, Repr

/-- Precedence of the production that the pending operator will reduce by
(`expression AND expression` / `%prec AND` → 2, `expression OR expression` → 1). -/
def rulePrec : PTok → Nat
  | .pand => 2
  | .por => 1
  | .pjuxt => 2

/-- Precedence of the operator as an incoming lookahead token (tokens not in
the `precedence` table — TEXT and LPAREN signalling juxtaposition — default to 0). -/
def tokPrec : PTok → Nat
  | .pand => 2
  | .por => 1
  | .pjuxt => 0

/-- Build the node a pending operator reduces to (`p_expression_and`,
`p_expression_or`, `p_expression_implicit_and`). -/
def applyPTok : PTok → QueryNode → QueryNode → QueryNode
  | .por, a, b => .boolComb .or [a, b]
  | .pand, a, b => .boolComb .and [a, b]
  | .pjuxt, a, b => .boolComb .and [a, b]

/-- Reduce all pending operators whose rule precedence is at least the
lookahead's token precedence (PLY reduces on lower-or-equal token precedence,
all operators being declared `left`). -/
def reduceStack (minp : Nat) :
    List (QueryNode × PTok) → QueryNode → List (QueryNode × PTok) × QueryNode
  | [], cur => ([], cur)
  | (l, o) :: rest, cur =>
    if minp ≤ rulePrec o then reduceStack minp rest (applyPTok o l cur)
    else ((l, o) :: rest, cur)

/-- `p_error`: raise naming the offending token, or a bare message at EOF. -/
def pError (ts : List Tok) : Except String (QueryNode × List Tok) :=
  match ts with
  | [] => .error "Syntax error"
  | t :: _ => .error ("Syntax error at '" ++ t.value ++ "'")

mutual

/-- Parse one primary expression: a parenthesised expression
(`p_expression_grouping`), `TEXT COMPARATOR literal` (`p_condition`, which
lowers the property and comparator) or a bare `TEXT` (`p_condition_implicit`). -/
def parseAtomF : Nat → List Tok → Except String (QueryNode × List Tok)
  | 0, _ => .error "parser out of fuel"
  | fuel + 1, ts =>
    match ts with
    | ⟨.TEXT, t⟩ :: ⟨.COMPARATOR, cp⟩ :: ⟨.TEXT, v⟩ :: rest =>
      .ok (mkCondition (strLower t) (strLower cp) v, rest)
    | ⟨.TEXT, t⟩ :: ⟨.COMPARATOR, cp⟩ :: ⟨.STRING, v⟩ :: rest =>
      .ok (mkCondition (strLower t) (strLower cp) v, rest)
    | ⟨.TEXT, _⟩ :: ⟨.COMPARATOR, _⟩ :: rest2 => pError rest2
    | ⟨.TEXT, t⟩ :: rest => .ok (mkCondition IMPLICIT_PROP "=" t, rest)
    | ⟨.LPAREN, _⟩ :: rest => do
      let (e, r) ← parseExprF fuel rest
      match r with
      | ⟨.RPAREN, _⟩ :: r2 => .ok (e, r2)
      | other => pError other
    | other => pError other

/-- The LR operator loop: on an operator lookahead, reduce by precedence, push
the operator and parse the next primary; any other lookahead ends the
expression (reducing everything pending). -/
def parseLoop : Nat → List (QueryNode × PTok) → QueryNode → List Tok →
    Except String (QueryNode × List Tok)
  | 0, _, _, _ => .error "parser out of fuel"
  | fuel + 1, stack, cur, ts =>
    match ts with
    | ⟨.AND, _⟩ :: rest => do
      let (st2, cur2) := reduceStack (tokPrec .pand) stack cur
      let (nx, r2) ← parseAtomF fuel rest
      parseLoop fuel ((cur2, .pand) :: st2) nx r2
    | ⟨.OR, _⟩ :: rest => do
      let (st2, cur2) := reduceStack (tokPrec .por) stack cur
      let (nx, r2) ← parseAtomF fuel rest
      parseLoop fuel ((cur2, .por) :: st2) nx r2
    | ⟨.TEXT, _⟩ :: _ => do
      let (st2, cur2) := reduceStack (tokPrec .pjuxt) stack cur
      let (nx, r2) ← parseAtomF fuel ts
      parseLoop fuel ((cur2, .pjuxt) :: st2) nx r2
    | ⟨.LPAREN, _⟩ :: _ => do
      let (st2, cur2) := reduceStack (tokPrec .pjuxt) stack cur
      let (nx, r2) ← parseAtomF fuel ts
      parseLoop fuel ((cur2, .pjuxt) :: st2) nx r2
    | _ =>
      let (_, res) := reduceStack 0 stack cur
      .ok (res, ts)

/-- Parse a full expression starting at the given tokens. -/
def parseExprF : Nat → List Tok → Except String (QueryNode × List Tok)
  | 0, _ => .error "parser out of fuel"
  | fuel + 1, ts => do
    let (a, r) ← parseAtomF fuel ts
    parseLoop fuel [] a r

end

/-- Parse a token stream to a tree; leftover tokens are a syntax error at the
offending token, exactly as yacc's `p_error` reports them. -/
def parseTokens (ts : List Tok) : Except String QueryNode := do
  let (e, rest) ← parseExprF (4 * ts.length + 8) ts
  match rest with
  | [] => .ok e
  | _ => (pError rest).map Prod.fst

/-- `search_parser.parse(text, lexer=search_lexer)`. -/
def parseText (text : String) : Except String QueryNode := do
  let toks ← tokenize text
  parseTokens toks

/-! ## Data model: organizations, fields, contacts and the value store

These model the Django rows the compiler touches: `ContactField` (with its
organization's timezone / day-first settings, read through `field.org`),
`Value` rows (one nullable typed column per value type), `ContactURN` rows,
`AdminBoundary` rows and the contact itself.  Dates/instants are integers
(hours); decimals are integers — only their ordered-field structure matters
to the compiled predicates. -/

/-- `Value.TYPE_TEXT / TYPE_DECIMAL / TYPE_DATETIME / TYPE_STATE / TYPE_DISTRICT / TYPE_WARD` -/
inductive VType
  | text
  | decimal
  | datetime
  | state
  | district
  | ward
deriving DecidableEq, Repr

/-- The per-organization settings a `ContactField` reaches through `field.org`:
`org.timezone` (modelled as an hour offset) and `org.get_dayfirst()`. -/
structure OrgSettings where
  timezone : Int
  dayfirst : Bool
deriving DecidableEq, Repr

/-- A `ContactField` row: key, declared value type, active flag and its
organization's settings. -/
structure ContactField where
  key : String
  value_type : VType
  is_active : Bool
  org : OrgSettings
deriving DecidableEq, Repr

/-- An organization: anonymity flag, settings and its contact fields. -/
structure Org where
  is_anon : Bool
  settings : OrgSettings
  fields : List ContactField
deriving DecidableEq, Repr

/-- A contact row (`name` is nullable). -/
structure Contact where
  id : Int
  name : Option String
deriving DecidableEq, Repr

/-- A `Value` row of the per-field value store: each typed column is nullable. -/
structure ValueRow where
  contact_id : Int
  contact_field : ContactField
  string_value : Option String
  decimal_value : Option Int
  datetime_value : Option Int
  location_value : Option Int
deriving DecidableEq, Repr

/-- A `ContactURN` row. -/
structure URNRow where
  contact_id : Int
  scheme : String
  path : String
deriving DecidableEq, Repr

/-- An `AdminBoundary` row. -/
structure Boundary where
  id : Int
  name : String
deriving DecidableEq, Repr

/-- The queryable store the compiled predicate runs against. -/
structure DB where
  values : List ValueRow
  urns : List URNRow
  boundaries : List Boundary
deriving DecidableEq, Repr

/-! ## Django lookups and the embedded `Q` predicate algebra -/

/-- Case-insensitive text lookups (`iexact` / `icontains`). -/
inductive TextLookup
  | iexact
  | icontains
deriving DecidableEq, Repr

/-- Ordered lookups on numeric columns (`exact`, `gt`, `gte`, `lt`, `lte`). -/
inductive NumLookup
  | exact
  | gt
  | gte
  | lt
  | lte
deriving DecidableEq, Repr

/-- Evaluate a text lookup on a stored string against the query literal. -/
def textMatch (lk : TextLookup) (stored target : String) : Bool :=
  match lk with
  | .iexact => iexact stored target
  | .icontains => icontains stored target

/-- Evaluate a numeric lookup on a stored number against the query literal. -/
def numMatch (lk : NumLookup) (stored target : Int) : Bool :=
  match lk with
  | .exact => stored == target
  | .gt => target < stored
  | .gte => target ≤ stored
  | .lt => stored < target
  | .lte => stored ≤ target

/-- One keyword of a `Value.objects.filter(**params)` parameter dict:
`contact_field=...`, `string_value__<lk>=...`, `decimal_value__<lk>=...`,
`datetime_value__<lk>=...` or `location_value__in=<boundary name subquery>`
(Django evaluates the boundary subquery lazily, so it is kept symbolic and
resolved against the store at evaluation time). -/
inductive VLookup
  | contact_field (f : ContactField)
  | string_value (lk : TextLookup) (v : String)
  | decimal_value (lk : NumLookup) (v : Int)
  | datetime_value (lk : NumLookup) (v : Int)
  | location_value_in (lk : TextLookup) (v : String)
deriving DecidableEq, Repr

/-- Evaluate one parameter keyword against a `Value` row (a NULL column never
matches a lookup). -/
def VLookup.eval (db : DB) (r : ValueRow) : VLookup → Bool
  | .contact_field f => r.contact_field == f
  | .string_value lk v =>
    match r.string_value with
    | some s => textMatch lk s v
    | none => false
  | .decimal_value lk v =>
    match r.decimal_value with
    | some d => numMatch lk d v
    | none => false
  | .datetime_value lk v =>
    match r.datetime_value with
    | some d => numMatch lk d v
    | none => false
  | .location_value_in lk v =>
    match r.location_value with
    | some lid => db.boundaries.any (fun b => b.id == lid && textMatch lk b.name v)
    | none => false

/-- A `Q` object over `Value` rows: either a conjunction of filter keywords
(`Q(**params)`) or an `&`/`|` combination, as built by
`SinglePropCombination.as_query`. -/
inductive VQ
  | filt (ls : List VLookup)
  | and (a b : VQ)
  | or (a b : VQ)
deriving DecidableEq, Repr

/-- Evaluate a value-row `Q` object against one row. -/
def VQ.eval (db : DB) (r : ValueRow) : VQ → Bool
  | .filt ls => ls.all (VLookup.eval db r)
  | .and a b => a.eval db r && b.eval db r
  | .or a b => a.eval db r || b.eval db r

/-- A `Q` object over contacts — the exact shapes the compiler emits:
`&`/`|`/`~` combinations, `Q(id=n)`, an attribute lookup
(`Q(name__icontains=...)` and friends), a URN sub-query
(`Q(id__in=ContactURN.objects.filter(...).values('contact_id'))`, optionally
scheme-scoped) and a value-store sub-query
(`Q(id__in=Value.objects.filter(...).values('contact_id'))`). -/
inductive Q
  | and (a b : Q)
  | or (a b : Q)
  | qnot (a : Q)
  | idEq (n : Int)
  | attr_lookup (attr : String) (lk : TextLookup) (v : String)
  | urn_in (scheme : Option String) (lk : TextLookup) (v : String)
  | value_in (vq : VQ)
deriving DecidableEq, Repr

/-- Evaluate a contact-level `Q` object: does this contact satisfy it? -/
def Q.eval (db : DB) (c : Contact) : Q → Bool
  | .and a b => a.eval db c && b.eval db c
  | .or a b => a.eval db c || b.eval db c
  | .qnot a => !(a.eval db c)
  | .idEq n => c.id == n
  | .attr_lookup attr lk v =>
    if attr == "name" then
      match c.name with
      | some nm => textMatch lk nm v
      | none => false
    else false  -- only 'name' is a searchable attribute; other columns never occur
  | .urn_in sc lk v =>
    db.urns.any (fun u =>
      u.contact_id == c.id &&
      (match sc with
       | some s => u.scheme == s
       | none => true) &&
      textMatch lk u.path v)
  | .value_in vq =>
    db.values.any (fun r => r.contact_id == c.id && vq.eval db r)

/-! ## Modelled external helpers (outside src/) -/

/-- Accumulate ASCII digits into a number. -/
def digitsToNat (cs : List Char) : Nat :=
  cs.foldl (fun n c => n * 10 + (c.toNat - 48)) 0

/-- Parse a non-empty all-digit character run. -/
def parseNatDigits (cs : List Char) : Option Nat :=
  if !cs.isEmpty && cs.all Char.isDigit then some (digitsToNat cs) else none

/-- Modelled from the spec: Python's built-in `int(value)` used by
`_build_implicit_prop_query` for anonymous organizations — parses an optional
sign followed by digits, raising `ValueError` (here `none`) otherwise. -/
def pyInt (s : String) : Option Int :=
  match s.data with
  | '-' :: rest => (parseNatDigits rest).map (fun n => -(n : Int))
  | '+' :: rest => (parseNatDigits rest).map (fun n => (n : Int))
  | cs => (parseNatDigits cs).map (fun n => (n : Int))

/-- Modelled from the spec: `Decimal(value)` conversion for decimal fields —
the literal must parse as a decimal number or the conversion raises.  The
numeric domain is simplified to (signed) integers, which is faithful for
everything the compiler does with the result (ordered comparisons passed into
the filter). -/
def pyDecimal (s : String) : Option Int :=
  match s.data with
  | '-' :: rest => (parseNatDigits rest).map (fun n => -(n : Int))
  | '+' :: rest => (parseNatDigits rest).map (fun n => (n : Int))
  | cs => (parseNatDigits cs).map (fun n => (n : Int))

/-- Modelled from the spec: `str_to_datetime(value, tz, dayfirst,
fill_time=False)` from `temba.utils` (not under src/): parses the literal as a
local date with no time of day in the organization's timezone, honoring its
day-first convention, and returns the start-of-day instant.  Instants are
modelled as integer hours and the literal format is simplified to an integer
local day index (the day-first flag affects only the concrete literal syntax,
which the claims do not depend on); the timezone offset converts local day
start to the absolute (UTC) instant. -/
def str_to_datetime (s : String) (tz : Int) (_dayfirst : Bool) : Option Int :=
  match parseNatDigits s.data with
  | some d => some ((d : Int) * 24 - tz)
  | none => none

/-- `timedelta(days=1)` in hour units. -/
def timedelta_days_1 : Int := 24

/-! ## Per-type lookup tables (`Condition.TEXT_LOOKUPS` etc.) -/

/-- `Condition.TEXT_LOOKUPS = {'=': 'iexact', '~': 'icontains'}` (used for
attributes, URNs and text fields). -/
def TEXT_LOOKUPS (comparator : String) : Option TextLookup :=
  if comparator = "=" then some .iexact
  else if comparator = "~" then some .icontains
  else none

/-- `Condition.DECIMAL_LOOKUPS` (note the redundant `'is'` key kept by the source). -/
def DECIMAL_LOOKUPS (comparator : String) : Option NumLookup :=
  if comparator = "=" then some .exact
  else if comparator = "is" then some .exact
  else if comparator = ">" then some .gt
  else if comparator = ">=" then some .gte
  else if comparator = "<" then some .lt
  else if comparator = "<=" then some .lte
  else none

/-- The datetime lookup names, `'<equal>'` marking the day-range equality case. -/
inductive DtLookup
  | dtequal
  | gt
  | gte
  | lt
  | lte
deriving DecidableEq, Repr

/-- `Condition.DATETIME_LOOKUPS` (again with the `'is'` key). -/
def DATETIME_LOOKUPS (comparator : String) : Option DtLookup :=
  if comparator = "=" then some .dtequal
  else if comparator = "is" then some .dtequal
  else if comparator = ">" then some .gt
  else if comparator = ">=" then some .gte
  else if comparator = "<" then some .lt
  else if comparator = "<=" then some .lte
  else none

/-- `Condition.LOCATION_LOOKUPS = {'=': 'iexact', '~': 'icontains'}`. -/
def LOCATION_LOOKUPS (comparator : String) : Option TextLookup :=
  if comparator = "=" then some .iexact
  else if comparator = "~" then some .icontains
  else none

/-! ## Field parameter builders (`Condition._build_*_field_params`) -/

/-- `Condition._build_text_field_params`. -/
def build_text_field_params (field : ContactField) (comparator value : String) :
    Except String (List VLookup) :=
  match TEXT_LOOKUPS comparator with
  | none => .error ("Unsupported comparator " ++ comparator ++ " for text field")
  | some lk => .ok [.contact_field field, .string_value lk value]

/-- `Condition._build_decimal_field_params`. -/
def build_decimal_field_params (field : ContactField) (comparator value : String) :
    Except String (List VLookup) :=
  match DECIMAL_LOOKUPS comparator with
  | none => .error ("Unsupported comparator " ++ comparator ++ " for decimal field")
  | some lk =>
    match pyDecimal value with
    | none => .error ("Can't convert '" ++ value ++ "' to a decimal")
    | some d => .ok [.contact_field field, .decimal_value lk d]

/-- `Condition._build_datetime_field_params`: parse the literal as a local
date, convert to UTC, then emit the day-granularity parameter set. -/
def build_datetime_field_params (field : ContactField) (comparator value : String) :
    Except String (List VLookup) :=
  match DATETIME_LOOKUPS comparator with
  | none => .error ("Unsupported comparator " ++ comparator ++ " for datetime field")
  | some lk =>
    match str_to_datetime value field.org.timezone field.org.dayfirst with
    | none => .error ("Unable to parse date: " ++ value)
    | some local_date =>
      -- `value = local_date.astimezone(pytz.utc)`: instants are already absolute here
      let v := local_date
      match lk with
      | .dtequal =>
        .ok [.contact_field field, .datetime_value .gte v,
             .datetime_value .lt (v + timedelta_days_1)]
      | .lte => .ok [.contact_field field, .datetime_value .lt (v + timedelta_days_1)]
      | .gt => .ok [.contact_field field, .datetime_value .gte (v + timedelta_days_1)]
      | .gte => .ok [.contact_field field, .datetime_value .gte v]
      | .lt => .ok [.contact_field field, .datetime_value .lt v]

/-- `Condition._build_location_field_params`. -/
def build_location_field_params (field : ContactField) (comparator value : String) :
    Except String (List VLookup) :=
  match LOCATION_LOOKUPS comparator with
  | none => .error ("Unsupported comparator " ++ comparator ++ " for location field")
  | some lk => .ok [.contact_field field, .location_value_in lk value]

/-- `Condition.build_value_query_params(field)`: dispatch on the field's
declared value type. -/
def build_value_query_params (field : ContactField) (comparator value : String) :
    Except String (List VLookup) :=
  match field.value_type with
  | .text => build_text_field_params field comparator value
  | .decimal => build_decimal_field_params field comparator value
  | .datetime => build_datetime_field_params field comparator value
  | .state => build_location_field_params field comparator value
  | .district => build_location_field_params field comparator value
  | .ward => build_location_field_params field comparator value

/-! ## The property map (`ContactQuery.get_prop_map`) -/

/-- A resolved property: `(PROP_ATTRIBUTE, attr)`, `(PROP_SCHEME, scheme)` or
`(PROP_FIELD, field)`. -/
inductive PropEntry
  | attribute (a : String)
  | scheme (s : String)
  | field (f : ContactField)
deriving DecidableEq, Repr

/-- `ContactQuery.SEARCHABLE_ATTRIBUTES` -/
def SEARCHABLE_ATTRIBUTES : List String := ["name"]

/-- `ContactQuery.SEARCHABLE_SCHEMES` -/
def SEARCHABLE_SCHEMES : List String := ["tel", "twitter"]

/-- Dictionary lookup in the (insertion-ordered) property map. -/
def pmLookup : List (String × PropEntry) → String → Option PropEntry
  | [], _ => none
  | kv :: rest, k => if kv.1 == k then some kv.2 else pmLookup rest k

/-! ## Condition compilation (`Condition.as_query` and helpers) -/

/-- `Condition._build_implicit_prop_query`: name-contains OR'd with an id
match (anonymous orgs) or a URN-path-contains sub-query. -/
def build_implicit_prop_query (org : Org) (value : String) : Q :=
  let name_query := Q.attr_lookup "name" .icontains value
  let urn_query :=
    if org.is_anon then
      match pyInt value with
      | some n => Q.idEq n
      | none => Q.idEq (-1)
    else
      Q.urn_in none .icontains value
  Q.or name_query urn_query

/-- `Condition._build_attr_query`. -/
def build_attr_query (attr comparator value : String) : Except String Q :=
  match TEXT_LOOKUPS comparator with
  | none => .error ("Unsupported comparator " ++ comparator ++ " for contact attribute")
  | some lk => .ok (Q.attr_lookup attr lk value)

/-- `Condition._build_urn_query`. -/
def build_urn_query (scheme comparator value : String) : Except String Q :=
  match TEXT_LOOKUPS comparator with
  | none => .error ("Unsupported comparator " ++ comparator ++ " for URN")
  | some lk => .ok (Q.urn_in (some scheme) lk value)

/-- `Condition.as_query(org, prop_map)`.  A missing key in `prop_map` raises a
bare `KeyError` in Python (not a `SearchException`); it is modelled as an
error string prefixed accordingly. -/
def condition_as_query (org : Org) (pm : List (String × PropEntry))
    (prop comparator value : String) : Except String Q :=
  if prop = IMPLICIT_PROP then
    .ok (build_implicit_prop_query org value)
  else
    match pmLookup pm prop with
    | none => .error ("KeyError: " ++ prop)
    | some (.field f) =>
      -- empty string equality means contacts without that field set
      if (strLower comparator = "=" || strLower comparator = "is") && value = "" then
        .ok (Q.qnot (Q.value_in (VQ.filt [VLookup.contact_field f])))
      else
        (build_value_query_params f comparator value).map (fun ps => Q.value_in (VQ.filt ps))
    | some (.scheme s) =>
      if org.is_anon then .ok (Q.idEq (-1))
      else build_urn_query s comparator value
    | some (.attribute a) => build_attr_query a comparator value

/-- Combine two compiled `Q` objects with `operator.and_`/`operator.or_`. -/
def applyOp (op : BOp) (a b : Q) : Q :=
  match op with
  | .and => Q.and a b
  | .or => Q.or a b

/-- Same combination over value-row `Q` objects. -/
def applyVOp (op : BOp) (a b : VQ) : VQ :=
  match op with
  | .and => VQ.and a b
  | .or => VQ.or a b

/-- `reduce(self.op, qs)`: left fold, raising on an empty sequence like
Python's `reduce`. -/
def reduceQ (op : BOp) : List Q → Except String Q
  | [] => .error "reduce() of empty sequence"
  | q :: rest => .ok (rest.foldl (applyOp op) q)

/-- `reduce(self.op, value_queries)` over value-row `Q` objects. -/
def reduceVQ (op : BOp) : List VQ → Except String VQ
  | [] => .error "reduce() of empty sequence"
  | q :: rest => .ok (rest.foldl (applyVOp op) q)

/-- `del params['contact_field']` in `SinglePropCombination.as_query`. -/
def delContactField (ps : List VLookup) : List VLookup :=
  ps.filter (fun l =>
    match l with
    | .contact_field _ => false
    | _ => true)

/-- The per-child parameter set a `SinglePropCombination` builds:
`child.build_value_query_params(prop_obj)` — every child is a `Condition` by
the constructor's assertion, so the fallback is unreachable for trees the
optimizer builds. -/
def childParams (f : ContactField) : QueryNode → Except String (List VLookup)
  | .condition _ comparator value => build_value_query_params f comparator value
  | _ => .error "AssertionError: SinglePropCombination child is not a Condition"

/-- The loop in `SinglePropCombination.as_query` building
`Q(**params)` per child after deleting the shared field key. -/
def mapChildParams (f : ContactField) : List QueryNode → Except String (List VQ)
  | [] => .ok []
  | c :: cs => do
    let ps ← childParams f c
    let rest ← mapChildParams f cs
    .ok (VQ.filt (delContactField ps) :: rest)

mutual

/-- `QueryNode.as_query(org, prop_map)` on each node class:
`Condition.as_query`, `BoolCombination.as_query` (reduce the children's
queries with the node's operator) and `SinglePropCombination.as_query` (for a
field property, one `Value` sub-query scoped once to the field with the
children's parameter sets, the field key deleted from each; everything else
falls back to the plain combination). -/
def QueryNode.as_query (org : Org) (pm : List (String × PropEntry)) :
    QueryNode → Except String Q
  | .condition p c v => condition_as_query org pm p c v
  | .boolComb op cs => do
    let qs ← mapAsQuery org pm cs
    reduceQ op qs
  | .singlePropComb prop op cs =>
    match pmLookup pm prop with
    | none => .error ("KeyError: " ++ prop)
    | some (.field f) => do
      let value_queries ← mapChildParams f cs
      let reduced ← reduceVQ op value_queries
      .ok (Q.value_in (VQ.and (VQ.filt [VLookup.contact_field f]) reduced))
    | some (.scheme _) => do
      let qs ← mapAsQuery org pm cs
      reduceQ op qs
    | some (.attribute _) => do
      let qs ← mapAsQuery org pm cs
      reduceQ op qs

/-- Compile a list of children in order (the list comprehension inside
`BoolCombination.as_query`). -/
def mapAsQuery (org : Org) (pm : List (String × PropEntry)) :
    List QueryNode → Except String (List Q)
  | [] => .ok []
  | c :: cs => do
    let q ← c.as_query org pm
    let qs ← mapAsQuery org pm cs
    .ok (q :: qs)

end

mutual

/-- `QueryNode.get_prop_names` (conditions contribute their property;
combinations concatenate their children's lists). -/
def QueryNode.get_prop_names : QueryNode → List String
  | .condition p _ _ => [p]
  | .boolComb _ cs => getPropNamesList cs
  | .singlePropComb _ _ cs => getPropNamesList cs

/-- Concatenation of the children's property-name lists. -/
def getPropNamesList : List QueryNode → List String
  | [] => []
  | c :: cs => c.get_prop_names ++ getPropNamesList cs

end

/-! ## Optimizer (`BoolCombination.simplify`, `BoolCombination.split_by_prop`) -/

/-- The loop body of `simplify`: walk the (already simplified) children left
to right; a `Condition` is kept, a combination with the same operator is
spliced, and a combination with a different operator aborts the whole splice
(`return self`), modelled as `none`. -/
def simplifyLoop (op : BOp) (acc : List QueryNode) :
    List QueryNode → Option (List QueryNode)
  | [] => some acc
  | c :: rest =>
    match c with
    | .condition p cp v => simplifyLoop op (acc ++ [.condition p cp v]) rest
    | .boolComb op' cs => if op' = op then simplifyLoop op (acc ++ cs) rest else none
    | .singlePropComb _ op' cs => if op' = op then simplifyLoop op (acc ++ cs) rest else none

mutual

/-- `simplify()`: conditions are returned as-is (`QueryNode.simplify`); a
combination first simplifies its children in place, then either splices all
same-operator child combinations into a fresh `BoolCombination` or — when any
child combination carries a different operator — returns itself with just the
simplified children.  (A `SinglePropCombination` inherits the method, so its
spliced result is a plain `BoolCombination`.) -/
def QueryNode.simplify : QueryNode → QueryNode
  | .condition p c v => .condition p c v
  | .boolComb op cs =>
    let cs' := simplifyList cs
    match simplifyLoop op [] cs' with
    | none => .boolComb op cs'
    | some s => .boolComb op s
  | .singlePropComb pr op cs =>
    let cs' := simplifyList cs
    match simplifyLoop op [] cs' with
    | none => .singlePropComb pr op cs'
    | some s => .boolComb op s

/-- `[c.simplify() for c in self.children]`. -/
def simplifyList : List QueryNode → List QueryNode
  | [] => []
  | c :: cs => c.simplify :: simplifyList cs

end

/-- The grouping key of `split_by_prop`:
`child.prop if isinstance(child, Condition) else None`. -/
def propKey : QueryNode → Option String
  | .condition p _ _ => some p
  | _ => none

/-- Append a child to its group in the ordered dict `children_by_prop`
(creating the group at the end on first sight of the key). -/
def groupInsert (k : Option String) (c : QueryNode) :
    List (Option String × List QueryNode) → List (Option String × List QueryNode)
  | [] => [(k, [c])]
  | (k', g) :: rest =>
    if k' = k then (k', g ++ [c]) :: rest else (k', g) :: groupInsert k c rest

/-- The `children_by_prop` ordered dict. -/
def children_by_prop (cs : List QueryNode) : List (Option String × List QueryNode) :=
  cs.foldl (fun m c => groupInsert (propKey c) c m) []

/-- The `new_children` list: a group of two or more children sharing a
non-null property is wrapped into a `SinglePropCombination`; every other group
is spliced back as-is. -/
def regroup (op : BOp) (gs : List (Option String × List QueryNode)) : List QueryNode :=
  match gs with
  | [] => []
  | (some p, g) :: rest =>
    if g.length > 1 then .singlePropComb p op g :: regroup op rest
    else g ++ regroup op rest
  | (none, g) :: rest => g ++ regroup op rest

mutual

/-- `split_by_prop()`: conditions are returned as-is; a combination splits its
children in place, groups them by property, wraps multi-member concrete
groups into `SinglePropCombination`s and collapses a singleton result. -/
def QueryNode.split_by_prop : QueryNode → QueryNode
  | .condition p c v => .condition p c v
  | .boolComb op cs =>
    let cs' := splitList cs
    let nc := regroup op (children_by_prop cs')
    match nc with
    | [c] => c
    | _ => .boolComb op nc
  | .singlePropComb _ op cs =>
    -- inherited from BoolCombination: the non-degenerate result is a plain combination
    let cs' := splitList cs
    let nc := regroup op (children_by_prop cs')
    match nc with
    | [c] => c
    | _ => .boolComb op nc

/-- `[c.split_by_prop() for c in self.children]`. -/
def splitList : List QueryNode → List QueryNode
  | [] => []
  | c :: cs => c.split_by_prop :: splitList cs

end

/-! ## ContactQuery -/

/-- A parsed contact query wrapping the root node. -/
structure ContactQuery where
  root : QueryNode
deriving DecidableEq, Repr

/-- `ContactQuery.optimized()`: `simplify` then `split_by_prop`, once. -/
def ContactQuery.optimized (q : ContactQuery) : ContactQuery :=
  ⟨q.root.simplify.split_by_prop⟩

/-- Keys in first-occurrence order (the dict comprehension
`{p: None for p in ...}`). -/
def dedupFirst (l : List String) : List String :=
  l.foldl (fun acc s => if acc.contains s then acc else acc ++ [s]) []

/-- Overwrite the value stored at a key (dict assignment, order preserved). -/
def setKey (m : List (String × Option PropEntry)) (k : String) (v : PropEntry) :
    List (String × Option PropEntry) :=
  m.map (fun kv => if kv.1 == k then (kv.1, some v) else kv)

/-- The final check of `get_prop_map`: raise on the first name that resolved
to nothing, otherwise return the completed map. -/
def finishPropMap : List (String × Option PropEntry) →
    Except String (List (String × PropEntry))
  | [] => .ok []
  | (k, none) :: _ => .error ("Unrecognized field: " ++ k)
  | (k, some v) :: rest => (finishPropMap rest).map (fun m => (k, v) :: m)

/-- `ContactQuery.get_prop_map(org)`: seed the map with every non-implicit
referenced name, assign matching active fields, then searchable attributes,
then searchable URN schemes (each pass overwriting what is already there),
and fail on any name still unresolved. -/
def ContactQuery.get_prop_map (q : ContactQuery) (org : Org) :
    Except String (List (String × PropEntry)) :=
  let props := dedupFirst (q.root.get_prop_names.filter (fun p => p ≠ IMPLICIT_PROP))
  let m0 : List (String × Option PropEntry) := props.map (fun p => (p, none))
  let m1 := (org.fields.filter (fun f => props.contains f.key && f.is_active)).foldl
    (fun m f => setKey m f.key (.field f)) m0
  let m2 := SEARCHABLE_ATTRIBUTES.foldl
    (fun m a => if props.contains a then setKey m a (.attribute a) else m) m1
  let m3 := SEARCHABLE_SCHEMES.foldl
    (fun m s => if props.contains s then setKey m s (.scheme s) else m) m2
  finishPropMap m3

/-- `ContactQuery.as_query(org)`: build the property map, then compile the root. -/
def ContactQuery.as_query (q : ContactQuery) (org : Org) : Except String Q := do
  let pm ← q.get_prop_map org
  q.root.as_query org pm

/-- `parse_query(text, optimize)`. -/
def parse_query (text : String) (optimize : Bool) : Except String ContactQuery := do
  let root ← parseText text
  let query := ContactQuery.mk root
  .ok (if optimize then query.optimized else query)

/-! ## Canonical rendering (`__str__`) -/

/-- `'OR' if self.op == self.OR else 'AND'` -/
def opStr (op : BOp) : String :=
  match op with
  | .or => "OR"
  | .and => "AND"

/-- `', '.join(...)` -/
def joinComma : List String → String
  | [] => ""
  | [s] => s
  | s :: rest => s ++ ", " ++ joinComma rest

/-- `'%s %s' % (c.comparator, c.value)` for a `SinglePropCombination` child
(always a `Condition` by the constructor's assertion). -/
def childCmpVal : QueryNode → String
  | .condition _ c v => c ++ " " ++ v
  | _ => ""

mutual

/-- `__str__` of each node class: `'%s%s%s' % (prop, comparator, value)` for a
condition, `'%s(%s)' % (op, ', '.join(children))` for a combination and
`'%s[%s](%s)' % (op, prop, ...)` for a single-property combination. -/
def QueryNode.render : QueryNode → String
  | .condition p c v => p ++ c ++ v
  | .boolComb op cs => opStr op ++ "(" ++ joinComma (renderList cs) ++ ")"
  | .singlePropComb pr op cs =>
    opStr op ++ "[" ++ pr ++ "](" ++ joinComma (cs.map childCmpVal) ++ ")"

/-- The children's renderings, in order. -/
def renderList : List QueryNode → List String
  | [] => []
  | c :: cs => c.render :: renderList cs

end

/-- `ContactQuery.__str__` -/
def ContactQuery.render (q : ContactQuery) : String := q.root.render

/-! ## Object-level model of the optimizer's mutation

`simplify` and `split_by_prop` reassign `self.children` in place
(`self.children = [c.simplify() for c in self.children]`, likewise in
`split_by_prop`) before deciding whether to return `self` or a freshly
constructed node.  To talk about what happens to the *receiver object*, the
tree is modelled as heap-allocated nodes (an address map) and the two methods
as heap transformers that update the receiver's `children` slot exactly where
the Python code assigns it and allocate fresh nodes exactly where the Python
code constructs them. -/

/-- Heap node payload: a condition, or a combination (`single = some prop`
marks a `SinglePropCombination`) holding the addresses of its children. -/
inductive HNode
  | cond (prop comparator value : String)
  | comb (single : Option String) (op : BOp) (children : List Nat)
deriving DecidableEq, Repr

/-- The object heap: address-to-node map plus the next fresh address. -/
structure Heap where
  nodes : List (Nat × HNode)
  next : Nat
deriving DecidableEq, Repr

/-- Read a node. -/
def hGet (h : Heap) (a : Nat) : Option HNode :=
  (h.nodes.find? (fun kv => kv.1 == a)).map (fun kv => kv.2)

/-- Overwrite a node in place (attribute assignment on an existing object). -/
def hSet (h : Heap) (a : Nat) (n : HNode) : Heap :=
  ⟨h.nodes.map (fun kv => if kv.1 == a then (a, n) else kv), h.next⟩

/-- Allocate a fresh node (object construction). -/
def hAlloc (h : Heap) (n : HNode) : Heap × Nat :=
  (⟨h.nodes ++ [(h.next, n)], h.next + 1⟩, h.next)

/-- The `simplify` splice loop over the receiver's (already reassigned)
children, reading each child object from the heap. -/
def simplifyLoopH (h : Heap) (op : BOp) (acc : List Nat) : List Nat → Option (List Nat)
  | [] => some acc
  | r :: rest =>
    match hGet h r with
    | some (.cond _ _ _) => simplifyLoopH h op (acc ++ [r]) rest
    | some (.comb _ op' cs) =>
      if op' = op then simplifyLoopH h op (acc ++ cs) rest else none
    | none => none

mutual

/-- Heap-level `simplify()`: recursively simplify the children, assign the
returned objects to `self.children`, then either return `self` (mixed
operators) or a freshly allocated `BoolCombination` with the spliced children. -/
def simplifyH : Nat → Heap → Nat → Option (Heap × Nat)
  | 0, _, _ => none
  | fuel + 1, h, a =>
    match hGet h a with
    | some (.cond _ _ _) => some (h, a)
    | some (.comb single op cs) => do
      let (h1, rs) ← simplifyListH fuel h cs
      let h2 := hSet h1 a (.comb single op rs)      -- self.children = [...]
      match simplifyLoopH h2 op [] rs with
      | none => some (h2, a)                         -- return self
      | some spliced =>
        let (h3, na) := hAlloc h2 (.comb none op spliced)
        some (h3, na)
    | none => none

/-- Simplify a list of child objects left to right, threading the heap. -/
def simplifyListH : Nat → Heap → List Nat → Option (Heap × List Nat)
  | 0, _, _ => none
  | _ + 1, h, [] => some (h, [])
  | fuel + 1, h, c :: cs => do
    let (h1, r) ← simplifyH fuel h c
    let (h2, rs) ← simplifyListH fuel h1 cs
    some (h2, r :: rs)

end

/-- `children_by_prop` over heap children (key read from the heap). -/
def groupAddrs (h : Heap) (rs : List Nat) : List (Option String × List Nat) :=
  rs.foldl
    (fun m r =>
      let k := match hGet h r with
        | some (.cond p _ _) => some p
        | _ => none
      match m.lookup k with
      | some _ => m.map (fun kg => if kg.1 = k then (kg.1, kg.2 ++ [r]) else kg)
      | none => m ++ [(k, [r])]) []

/-- Build `new_children` from the groups, allocating a
`SinglePropCombination` per multi-member concrete group. -/
def regroupH (op : BOp) : Heap → List (Option String × List Nat) → Heap × List Nat
  | h, [] => (h, [])
  | h, (some p, g) :: rest =>
    if g.length > 1 then
      let (h1, na) := hAlloc h (.comb (some p) op g)
      let (h2, xs) := regroupH op h1 rest
      (h2, na :: xs)
    else
      let (h2, xs) := regroupH op h rest
      (h2, g ++ xs)
  | h, (none, g) :: rest =>
    let (h2, xs) := regroupH op h rest
    (h2, g ++ xs)

mutual

/-- Heap-level `split_by_prop()`: split the children in place, group, then
return the singleton result directly or a freshly allocated combination. -/
def splitH : Nat → Heap → Nat → Option (Heap × Nat)
  | 0, _, _ => none
  | fuel + 1, h, a =>
    match hGet h a with
    | some (.cond _ _ _) => some (h, a)
    | some (.comb single op cs) => do
      let (h1, rs) ← splitListH fuel h cs
      let h2 := hSet h1 a (.comb single op rs)      -- self.children = [...]
      let (h3, nc) := regroupH op h2 (groupAddrs h2 rs)
      match nc with
      | [x] => some (h3, x)
      | _ =>
        let (h4, na) := hAlloc h3 (.comb none op nc)
        some (h4, na)
    | none => none

/-- Split a list of child objects left to right, threading the heap. -/
def splitListH : Nat → Heap → List Nat → Option (Heap × List Nat)
  | 0, _, _ => none
  | _ + 1, h, [] => some (h, [])
  | fuel + 1, h, c :: cs => do
    let (h1, r) ← splitH fuel h c
    let (h2, rs) ← splitListH fuel h1 cs
    some (h2, r :: rs)

end

/-- Heap-level `ContactQuery.optimized()` applied to the root object:
`self.root.simplify().split_by_prop()` — the receiver keeps pointing at the
original root object throughout. -/
def optimizedH (fuel : Nat) (h : Heap) (root : Nat) : Option (Heap × Nat) := do
  let (h1, r) ← simplifyH fuel h root
  splitH fuel h1 r

mutual

/-- Read the tree reachable from an address back into a pure `QueryNode`. -/
def readTreeH : Nat → Heap → Nat → Option QueryNode
  | 0, _, _ => none
  | fuel + 1, h, a =>
    match hGet h a with
    | some (.cond p c v) => some (.condition p c v)
    | some (.comb single op cs) => do
      let ts ← readTreeListH fuel h cs
      match single with
      | some p => some (.singlePropComb p op ts)
      | none => some (.boolComb op ts)
    | none => none

/-- Read a list of children. -/
def readTreeListH : Nat → Heap → List Nat → Option (List QueryNode)
  | 0, _, _ => none
  | _ + 1, _, [] => some []
  | fuel + 1, h, c :: cs => do
    let t ← readTreeH fuel h c
    let ts ← readTreeListH fuel h cs
    some (t :: ts)

end

/-! ## Tree predicates used by the theorems -/

mutual

/-- The tree contains no `SinglePropCombination` node (true of every tree the
parser produces). -/
def noSPC : QueryNode → Bool
  | .condition _ _ _ => true
  | .boolComb _ cs => noSPCList cs
  | .singlePropComb _ _ _ => false

/-- `noSPC` over a child list. -/
def noSPCList : List QueryNode → Bool
  | [] => true
  | c :: cs => noSPC c && noSPCList cs

end

/-- A `SinglePropCombination` child that does not hit the empty-string
equality special case (which `SinglePropCombination.as_query` bypasses), and
is an actual `Condition` (the constructor's assertion). -/
def safeSPCChild : QueryNode → Bool
  | .condition _ c v => !((strLower c == "=" || strLower c == "is") && v == "")
  | _ => false

mutual

/-- Every `SinglePropCombination` in the tree has a non-implicit property and
only safe condition children. -/
def spcSafe : QueryNode → Bool
  | .condition _ _ _ => true
  | .boolComb _ cs => spcSafeList cs
  | .singlePropComb p _ cs => !(p == IMPLICIT_PROP) && cs.all safeSPCChild

/-- `spcSafe` over a child list. -/
def spcSafeList : List QueryNode → Bool
  | [] => true
  | c :: cs => spcSafe c && spcSafeList cs

end

/-- Is the node a combination (of either class)? -/
def isComb : QueryNode → Bool
  | .condition _ _ _ => false
  | .boolComb _ _ => true
  | .singlePropComb _ _ _ => true

/-- Is the node a combination carrying the given operator? -/
def combOpIs (op : BOp) : QueryNode → Bool
  | .condition _ _ _ => false
  | .boolComb op' _ => op' == op
  | .singlePropComb _ op' _ => op' == op

mutual

/-- Every combination's combination children carry the combination's own
operator (no AND-under-OR or OR-under-AND anywhere). -/
def noMixedOps : QueryNode → Bool
  | .condition _ _ _ => true
  | .boolComb op cs => childrenOpsOk op cs
  | .singlePropComb _ op cs => childrenOpsOk op cs

/-- `noMixedOps` over a child list against the parent's operator. -/
def childrenOpsOk (op : BOp) : List QueryNode → Bool
  | [] => true
  | c :: cs => (!isComb c || combOpIs op c) && noMixedOps c && childrenOpsOk op cs

end

mutual

/-- No combination in the tree has a direct child combination with the same
operator (the flattening guarantee the spec ascribes to `simplify`). -/
def noSameOpNest : QueryNode → Bool
  | .condition _ _ _ => true
  | .boolComb op cs => noSameOpChildren op cs
  | .singlePropComb _ op cs => noSameOpChildren op cs

/-- `noSameOpNest` over a child list against the parent's operator. -/
def noSameOpChildren (op : BOp) : List QueryNode → Bool
  | [] => true
  | c :: cs => !combOpIs op c && noSameOpNest c && noSameOpChildren op cs

end

/-- The value store records at most one value row per contact and field — the
regime in which grouping an AND of same-field conditions into a single
field-scoped sub-query is sound. -/
def OneValuePerField (db : DB) : Prop :=
  ∀ r1 ∈ db.values, ∀ r2 ∈ db.values,
    r1.contact_id = r2.contact_id → r1.contact_field = r2.contact_field → r1 = r2

/-- A string that lexes as one TEXT token and stays TEXT (non-empty, all
text characters, not a reserved word). -/
def isTextWord (s : String) : Bool :=
  !s.data.isEmpty && s.data.all isTextChar &&
  !(strLower s == "and" || strLower s == "or" || strLower s == "has" || strLower s == "is")

/-! ## Shared concrete examples -/

/-- Settings of the example organization (UTC, month-first). -/
def exSettings : OrgSettings := ⟨0, false⟩

/-- An active text field `email`. -/
def exFieldEmail : ContactField := ⟨"email", .text, true, exSettings⟩

/-- An active decimal field `age`. -/
def exFieldAge : ContactField := ⟨"age", .decimal, true, exSettings⟩

/-- An active datetime field `joined`. -/
def exFieldJoined : ContactField := ⟨"joined", .datetime, true, exSettings⟩

/-- An active text field whose key collides with the searchable attribute `name`. -/
def exFieldNamed : ContactField := ⟨"name", .text, true, exSettings⟩

/-- A non-anonymous organization owning the four example fields. -/
def exOrg : Org := ⟨false, exSettings, [exFieldEmail, exFieldAge, exFieldJoined, exFieldNamed]⟩

/-- An empty value/URN/boundary store. -/
def exDbEmpty : DB := ⟨[], [], []⟩

/-- A contact with no recorded field values in `exDbEmpty`. -/
def exContact : Contact := ⟨1, some "zz"⟩

/-- A combination mixing a same-operator and a different-operator child:
`AND(AND(a, b), OR(c, d))` (as implicit-property conditions). -/
def exMixed : QueryNode :=
  .boolComb .and
    [.boolComb .and [.condition "*" "=" "a", .condition "*" "=" "b"],
     .boolComb .or [.condition "*" "=" "c", .condition "*" "=" "d"]]

/-- Heap layout of the tree `AND(x=1, OR(b=1, b=2))`: address 1 is the root
object held by the `ContactQuery`. -/
def exHeap : Heap :=
  ⟨[(1, .comb none .and [2, 3]),
    (2, .cond "x" "=" "1"),
    (3, .comb none .or [4, 5]),
    (4, .cond "b" "=" "1"),
    (5, .cond "b" "=" "2")], 6⟩

/-- The tree reachable from the root object before `optimized()`. -/
def exHeapTreeBefore : QueryNode :=
  .boolComb .and [.condition "x" "=" "1",
    .boolComb .or [.condition "b" "=" "1", .condition "b" "=" "2"]]

/-- The tree reachable from the *same* root object after `optimized()`. -/
def exHeapTreeAfter : QueryNode :=
  .boolComb .and [.condition "x" "=" "1",
    .singlePropComb "b" .or [.condition "b" "=" "1", .condition "b" "=" "2"]]

/-! ## Claim C2 (code bug) and the closed counterexamples -/

/-- C2: the claim says implicit-property conditions each form their own
singleton group keyed by the null marker and are never wrapped into a
`SinglePropCombination`.  The code keys an implicit condition by its literal
prop `'*'`, so the two bare-text conditions of `"bob jim"` *are* wrapped into
`SinglePropCombination('*', AND, ...)`; compiling the optimized query then
fails (a bare `KeyError`, outside the `SearchException` taxonomy) although the
unoptimized query compiles fine. -/
theorem C2_implicit_grouping_bug :
    QueryNode.split_by_prop
        (.boolComb .and [.condition "*" "=" "bob", .condition "*" "=" "jim"]) =
      .singlePropComb "*" .and [.condition "*" "=" "bob", .condition "*" "=" "jim"] ∧
    (parse_query "bob jim" false).map (fun q => (q.as_query exOrg).isOk) = .ok true ∧
    (parse_query "bob jim" true).map (fun q => q.as_query exOrg) =
      .ok (.error "KeyError: *") := ⟨rfl, rfl, rfl⟩

/-- C1 counterexample: for the parsed tree of `email = "" OR email = "x"`
(`email` a text field), the unoptimized compilation matches a contact with no
`email` value (absence special case) but the optimized compilation — a
`SinglePropCombination` whose `as_query` bypasses the special case — does not:
the selected sets differ. -/
theorem C1_counterexample :
    ((ContactQuery.mk (.boolComb .or
        [.condition "email" "=" "", .condition "email" "=" "x"])).as_query exOrg).map
      (fun q => q.eval exDbEmpty exContact) = .ok true ∧
    ((ContactQuery.mk (.boolComb .or
        [.condition "email" "=" "", .condition "email" "=" "x"])).optimized.as_query exOrg).map
      (fun q => q.eval exDbEmpty exContact) = .ok false := ⟨rfl, rfl⟩

/-- C3 counterexample: `exOrg` has an *active custom field* with key `name`,
yet `get_prop_map` resolves the property `name` to the searchable attribute —
the attribute pass runs after the field pass and overwrites it, so the first
match does not win. -/
theorem C3_counterexample :
    exFieldNamed ∈ exOrg.fields ∧ exFieldNamed.is_active = true ∧ exFieldNamed.key = "name" ∧
    (ContactQuery.mk (.condition "name" "=" "x")).get_prop_map exOrg =
      .ok [("name", PropEntry.attribute "name")] :=
  ⟨by decide, rfl, rfl, rfl⟩

/-- C4 counterexample: on `AND(AND(a,b), OR(c,d))` the loop in `simplify`
aborts at the different-operator child and returns the node unchanged, leaving
the directly nested same-operator `AND` unspliced. -/
theorem C4_counterexample :
    QueryNode.simplify exMixed = exMixed ∧
    noSameOpNest (QueryNode.simplify exMixed) = false := ⟨rfl, rfl⟩

/-- C5 counterexample: Python's ordered regex alternation makes the leading
`~` alternative match first, so `~~` lexes as two `~` tokens and
`name ~~ bob` is a syntax error — `~~` is *not* a usable alias of `~`
(contrast with single `~`). -/
theorem C5_counterexample :
    tokenize "~~" = .ok [⟨.COMPARATOR, "~"⟩, ⟨.COMPARATOR, "~"⟩] ∧
    parseText "name ~~ bob" = .error "Syntax error at '~'" ∧
    parseText "name ~ bob" = .ok (.condition "name" "~" "bob") := ⟨rfl, rfl, rfl⟩

/-- C7 counterexample: standalone, `email = ""` matches the contact with no
recorded `email` value; as a child of a `SinglePropCombination` over `email`
the very same condition compiles through `build_value_query_params` (equality
with the empty string) and no longer matches that contact. -/
theorem C7_counterexample :
    ((ContactQuery.mk (.condition "email" "=" "")).as_query exOrg).map
      (fun q => q.eval exDbEmpty exContact) = .ok true ∧
    ((ContactQuery.mk (.singlePropComb "email" .or
        [.condition "email" "=" "", .condition "email" "=" "x"])).as_query exOrg).map
      (fun q => q.eval exDbEmpty exContact) = .ok false := ⟨rfl, rfl⟩

/-- C10: `optimized()` is not read-only on its receiver.  Starting from the
heap holding `AND(x=1, OR(b=1, b=2))` at the root object, running
`root.simplify().split_by_prop()` leaves the *original root object* pointing
at a different tree — `split_by_prop` reassigned the inner combination's
children slot in place — so the query's own tree, rendering and structural
equality change, while the returned (new) tree agrees with the pure
`ContactQuery.optimized`. -/
theorem C10_optimized_mutates_receiver :
    readTreeH 20 exHeap 1 = some exHeapTreeBefore ∧
    (optimizedH 20 exHeap 1).map (fun p => readTreeH 20 p.1 1) = some (some exHeapTreeAfter) ∧
    exHeapTreeBefore ≠ exHeapTreeAfter ∧
    exHeapTreeBefore.render ≠ exHeapTreeAfter.render ∧
    (ContactQuery.mk exHeapTreeBefore).optimized = ContactQuery.mk exHeapTreeAfter :=
  ⟨rfl, rfl, by decide, by decide, rfl⟩

/-! ## Claim C6: datetime comparator semantics -/

/-- C6: for a condition on a datetime custom field whose literal parses to the
UTC day-start instant `d`, the compiled parameter set selects, for `=`, value
rows in `[d, d + 24h)`; for `<=`, rows `< d + 24h`; for `>`, rows
`≥ d + 24h`; for `>=` and `<`, rows compared directly against `d` — always
conjoined with the field-equality filter; an unparseable literal makes
compilation fail with an error naming the value. -/
theorem C6_datetime_semantics (f : ContactField) (value : String)
    (hty : f.value_type = .datetime) :
    (∀ d : Int, str_to_datetime value f.org.timezone f.org.dayfirst = some d →
      ∀ (db : DB) (r : ValueRow),
        ((build_value_query_params f "=" value).map (fun ps => (VQ.filt ps).eval db r) = .ok true
          ↔ r.contact_field = f ∧
            ∃ t, r.datetime_value = some t ∧ d ≤ t ∧ t < d + timedelta_days_1) ∧
        ((build_value_query_params f "<=" value).map (fun ps => (VQ.filt ps).eval db r) = .ok true
          ↔ r.contact_field = f ∧ ∃ t, r.datetime_value = some t ∧ t < d + timedelta_days_1) ∧
        ((build_value_query_params f ">" value).map (fun ps => (VQ.filt ps).eval db r) = .ok true
          ↔ r.contact_field = f ∧ ∃ t, r.datetime_value = some t ∧ d + timedelta_days_1 ≤ t) ∧
        ((build_value_query_params f ">=" value).map (fun ps => (VQ.filt ps).eval db r) = .ok true
          ↔ r.contact_field = f ∧ ∃ t, r.datetime_value = some t ∧ d ≤ t) ∧
        ((build_value_query_params f "<" value).map (fun ps => (VQ.filt ps).eval db r) = .ok true
          ↔ r.contact_field = f ∧ ∃ t, r.datetime_value = some t ∧ t < d)) ∧
    (str_to_datetime value f.org.timezone f.org.dayfirst = none →
      ∀ cmp ∈ (["=", "<=", ">", ">=", "<"] : List String),
        build_value_query_params f cmp value = .error ("Unable to parse date: " ++ value)) := by
  obtain ⟨k, vt, ia, os⟩ := f
  simp only at hty
  subst hty
  constructor
  · intro d hd db r
    simp only at hd
    refine ⟨?_, ?_, ?_, ?_, ?_⟩ <;>
    · simp only [build_value_query_params, build_datetime_field_params, DATETIME_LOOKUPS, hd]
      simp only [reduceIte, Except.map, VQ.eval, List.all_cons, List.all_nil, VLookup.eval]
      rcases hr : r.datetime_value with _ | t <;>
        simp [hr, VLookup.eval, numMatch, beq_iff_eq, Bool.and_eq_true, and_assoc]
  · intro h cmp hc
    simp only at h
    simp only [List.mem_cons, List.not_mem_nil, or_false] at hc
    rcases hc with rfl | rfl | rfl | rfl | rfl <;>
      simp [build_value_query_params, build_datetime_field_params, DATETIME_LOOKUPS, h]

/-- A value row recording `joined` at instant 130 (inside day 5 = [120, 144)). -/
def exValueJoined : ValueRow := ⟨1, exFieldJoined, none, none, some 130, none⟩

/-- Witness for C6: the datetime field `joined` with literal `5` (day start
120) matches the row holding instant 130 under `=`. -/
theorem C6_witness :
    (build_value_query_params exFieldJoined "=" "5").map
      (fun ps => (VQ.filt ps).eval exDbEmpty exValueJoined) = .ok true :=
  ((C6_datetime_semantics exFieldJoined "5" rfl).1 120 rfl exDbEmpty exValueJoined).1.mpr
    ⟨rfl, 130, rfl, by decide, by decide⟩

/-! ## Claim C4: what `simplify` actually flattens -/

/-- Is the node a `Condition`? -/
def isCondB : QueryNode → Bool
  | .condition _ _ _ => true
  | _ => false

/-- Are all members of the list `Condition`s? -/
def allConds (l : List QueryNode) : Bool := l.all isCondB

theorem simplifyList_eq_map (l : List QueryNode) :
    simplifyList l = l.map QueryNode.simplify := by
  induction l with
  | nil => rfl
  | cons c cs ih => simp [simplifyList, ih]

theorem childrenOpsOk_mem {op : BOp} {l : List QueryNode} (h : childrenOpsOk op l = true)
    {c : QueryNode} (hc : c ∈ l) :
    (isComb c = true → combOpIs op c = true) ∧ noMixedOps c = true := by
  induction l with
  | nil => cases hc
  | cons d ds ih =>
    simp only [childrenOpsOk, Bool.and_eq_true, Bool.or_eq_true, Bool.not_eq_true'] at h
    cases hc with
    | head => exact ⟨fun hcomb => h.1.1.resolve_left (by simp [hcomb]), h.1.2⟩
    | tail _ hc => exact ih h.2 hc

theorem allConds_append {a b : List QueryNode} :
    allConds (a ++ b) = (allConds a && allConds b) := by
  simp [allConds, List.all_append]

/-- The splice loop of `simplify` succeeds, with an all-condition result, when
every child is a condition or a same-operator combination of conditions. -/
theorem flatLoop {op : BOp} : ∀ (l : List QueryNode) (acc : List QueryNode),
    (∀ c ∈ l, isCondB c = true ∨ ∃ ds, c = .boolComb op ds ∧ allConds ds = true) →
    allConds acc = true →
    ∃ s, simplifyLoop op acc l = some s ∧ allConds s = true := by
  intro l
  induction l with
  | nil => exact fun acc _ hacc => ⟨acc, rfl, hacc⟩
  | cons c rest ih =>
    intro acc hl hacc
    rcases hl c (by simp) with hcond | ⟨ds, rfl, hds⟩
    · match c, hcond with
      | .condition p cp v, _ =>
        exact ih (acc ++ [.condition p cp v]) (fun x hx => hl x (by simp [hx]))
          (by rw [allConds_append, hacc]; simp [allConds, isCondB])
    · simp only [simplifyLoop, if_pos rfl]
      exact ih (acc ++ ds) (fun x hx => hl x (by simp [hx]))
        (by rw [allConds_append, hacc, hds]; rfl)

/-- Under unmixed operators, `simplify` returns either the condition itself or
a single-level combination whose children are all conditions. -/
theorem simplify_flat : ∀ t : QueryNode, noMixedOps t = true →
    (isCondB t = true ∧ QueryNode.simplify t = t) ∨
    (∃ op s, combOpIs op t = true ∧ QueryNode.simplify t = .boolComb op s ∧ allConds s = true) := by
  intro t
  induction t using queryNodeRec
    (L := fun l => ∀ c ∈ l, noMixedOps c = true →
      (isCondB c = true ∧ QueryNode.simplify c = c) ∨
      (∃ op s, combOpIs op c = true ∧ QueryNode.simplify c = .boolComb op s ∧
        allConds s = true)) with
  | condition p c v => intro _; exact Or.inl ⟨rfl, rfl⟩
  | boolComb op cs ih =>
    intro hmix
    simp only [noMixedOps] at hmix
    right
    have hchildren : ∀ c' ∈ simplifyList cs,
        isCondB c' = true ∨ ∃ ds, c' = .boolComb op ds ∧ allConds ds = true := by
      rw [simplifyList_eq_map]
      intro c' hc'
      rcases List.mem_map.mp hc' with ⟨c, hc, rfl⟩
      obtain ⟨hop, hm⟩ := childrenOpsOk_mem hmix hc
      rcases ih c hc hm with ⟨hcond, heq⟩ | ⟨op₂, s, hcomb, heq, hs⟩
      · exact Or.inl (by rw [heq]; exact hcond)
      · right
        refine ⟨s, ?_, hs⟩
        have : combOpIs op c = true := hop (by cases c <;> simp_all [isComb, combOpIs])
        cases c with
        | condition _ _ _ => simp [combOpIs] at hcomb
        | boolComb o2 cs2 =>
          simp only [combOpIs, beq_iff_eq] at hcomb this
          rw [heq, ← hcomb, this]
        | singlePropComb _ o2 cs2 =>
          simp only [combOpIs, beq_iff_eq] at hcomb this
          rw [heq, ← hcomb, this]
    obtain ⟨s, hloop, hs⟩ := flatLoop (simplifyList cs) [] hchildren rfl
    exact ⟨op, s, by simp [combOpIs], by simp [QueryNode.simplify, hloop], hs⟩
  | singlePropComb p op cs ih =>
    intro hmix
    simp only [noMixedOps] at hmix
    right
    have hchildren : ∀ c' ∈ simplifyList cs,
        isCondB c' = true ∨ ∃ ds, c' = .boolComb op ds ∧ allConds ds = true := by
      rw [simplifyList_eq_map]
      intro c' hc'
      rcases List.mem_map.mp hc' with ⟨c, hc, rfl⟩
      obtain ⟨hop, hm⟩ := childrenOpsOk_mem hmix hc
      rcases ih c hc hm with ⟨hcond, heq⟩ | ⟨op₂, s, hcomb, heq, hs⟩
      · exact Or.inl (by rw [heq]; exact hcond)
      · right
        refine ⟨s, ?_, hs⟩
        have : combOpIs op c = true := hop (by cases c <;> simp_all [isComb, combOpIs])
        cases c with
        | condition _ _ _ => simp [combOpIs] at hcomb
        | boolComb o2 cs2 =>
          simp only [combOpIs, beq_iff_eq] at hcomb this
          rw [heq, ← hcomb, this]
        | singlePropComb _ o2 cs2 =>
          simp only [combOpIs, beq_iff_eq] at hcomb this
          rw [heq, ← hcomb, this]
    obtain ⟨s, hloop, hs⟩ := flatLoop (simplifyList cs) [] hchildren rfl
    exact ⟨op, s, by simp [combOpIs], by simp [QueryNode.simplify, hloop], hs⟩
  | nil =>
    rename_i c hc hmx
    cases hc
  | cons c cs ihc ihcs =>
    rename_i d hd hmx
    cases hd with
    | head => exact ihc hmx
    | tail _ hd => exact ihcs d hd hmx

theorem allConds_noSameOpChildren {op : BOp} {l : List QueryNode} (h : allConds l = true) :
    noSameOpChildren op l = true := by
  induction l with
  | nil => rfl
  | cons c cs ih =>
    simp only [allConds, List.all_cons, Bool.and_eq_true] at h
    match c, h.1 with
    | .condition p cp v, _ =>
      simp [noSameOpChildren, combOpIs, noSameOpNest, ih (by simp [allConds, h.2])]

/-- C4 (amended): `simplify` splices only when no direct child combination
carries a different operator — on mixed children it returns the node with the
children merely simplified, so same-operator nesting can survive (see the
counterexample).  The claimed no-same-operator-nesting guarantee does hold on
every tree in which no combination has a child combination with a different
operator: there `simplify` flattens fully. -/
theorem C4_simplify_flattening : ∀ t : QueryNode, noMixedOps t = true →
    noSameOpNest (QueryNode.simplify t) = true := by
  intro t hmix
  rcases simplify_flat t hmix with ⟨hcond, heq⟩ | ⟨op, s, _, heq, hs⟩
  · rw [heq]
    match t, hcond with
    | .condition p c v, _ => rfl
  · rw [heq]
    simpa [noSameOpNest] using @allConds_noSameOpChildren op s hs

/-- Witness for C4: `AND(a=1, AND(b=2, c=3))` has unmixed operators and its
simplification has no same-operator nesting. -/
theorem C4_witness :
    noMixedOps (QueryNode.boolComb .and [.condition "a" "=" "1",
      .boolComb .and [.condition "b" "=" "2", .condition "c" "=" "3"]]) = true ∧
    noSameOpNest (QueryNode.simplify (QueryNode.boolComb .and [.condition "a" "=" "1",
      .boolComb .and [.condition "b" "=" "2", .condition "c" "=" "3"]])) = true :=
  ⟨rfl, C4_simplify_flattening _ rfl⟩

/-! ## Claim C5: which comparator tokens exist and how they normalize -/

theorem mapConsOk {e : Except String (List Tok)} {tok : Tok} {toks : List Tok}
    (h : e.map (fun ts => tok :: ts) = .ok toks) :
    ∃ ts, e = .ok ts ∧ toks = tok :: ts := by
  cases e with
  | error _ => simp [Except.map] at h
  | ok ts => exact ⟨ts, rfl, by simpa [Except.map] using h.symm⟩

theorem reservedComp {s : String} (h : reservedType s = .COMPARATOR) :
    s = "has" ∨ s = "is" := by
  unfold reservedType at h
  split_ifs at h <;> simp_all

/-- Lexer invariant: every COMPARATOR token the lexer can ever produce has, up
to case, one of the values `~ = < <= > >= has is` — in particular never `~~`. -/
theorem lexComparatorValues : ∀ (fuel : Nat) (cs : List Char) (toks : List Tok),
    lexChars fuel cs = .ok toks → ∀ tk ∈ toks, tk.type = .COMPARATOR →
    strLower tk.value ∈ (["~", "=", "<", "<=", ">", ">=", "has", "is"] : List String) := by
  intro fuel
  induction fuel with
  | zero => intro cs toks h; simp [lexChars] at h
  | succ fuel ih =>
    intro cs toks h tk htk hcomp
    match cs with
    | [] =>
      simp only [lexChars, Except.ok.injEq] at h
      subst h; cases htk
    | c :: cs =>
      simp only [lexChars] at h
      split_ifs at h with h1 h2 h3 h4 h5 h6 h7 h8 h9 h10
      · exact ih _ _ h tk htk hcomp
      · obtain ⟨ts, hts, rfl⟩ := mapConsOk h
        cases htk with
        | head => decide
        | tail _ htl => exact ih _ _ hts tk htl hcomp
      · obtain ⟨ts, hts, rfl⟩ := mapConsOk h
        cases htk with
        | head => decide
        | tail _ htl => exact ih _ _ hts tk htl hcomp
      · -- `[<>]=?` with a following `=`
        rcases Bool.or_eq_true_iff.mp h4 with hc | hc <;> rw [beq_iff_eq] at hc <;> subst hc <;>
        · obtain ⟨ts, hts, rfl⟩ := mapConsOk h
          cases htk with
          | head => decide
          | tail _ htl => exact ih _ _ hts tk htl hcomp
      · -- `[<>]` alone
        rcases Bool.or_eq_true_iff.mp h4 with hc | hc <;> rw [beq_iff_eq] at hc <;> subst hc <;>
        · obtain ⟨ts, hts, rfl⟩ := mapConsOk h
          cases htk with
          | head => decide
          | tail _ htl => exact ih _ _ hts tk htl hcomp
      · -- the string rule
        obtain ⟨ts, hts, rfl⟩ := mapConsOk h
        cases htk with
        | head => cases hcomp
        | tail _ htl => exact ih _ _ hts tk htl hcomp
      · -- a text run, possibly reserved
        obtain ⟨ts, hts, rfl⟩ := mapConsOk h
        cases htk with
        | head =>
          rcases reservedComp hcomp with hs | hs <;> simp [Tok.value, hs]
        | tail _ htl => exact ih _ _ hts tk htl hcomp
      · obtain ⟨ts, hts, rfl⟩ := mapConsOk h
        cases htk with
        | head => cases hcomp
        | tail _ htl => exact ih _ _ hts tk htl hcomp
      · obtain ⟨ts, hts, rfl⟩ := mapConsOk h
        cases htk with
        | head => cases hcomp
        | tail _ htl => exact ih _ _ hts tk htl hcomp

/-- C5 (amended): `is` normalizes to `=` and `has` to `~` at construction
time, and for every comparator token the lexer can actually produce
(`~ = < <= > >=` and the reserved words, case-insensitively — never `~~`,
which the ordered regex alternation splits into two `~` tokens, see the
counterexample), the condition the parser builds from it stores one of the six
canonical comparators. -/
theorem C5_comparator_normalization :
    (∀ p v : String, mkCondition p "is" v = .condition p "=" v ∧
      mkCondition p "has" v = .condition p "~" v) ∧
    (∀ (s : String) (toks : List Tok), tokenize s = .ok toks →
      ∀ tk ∈ toks, tk.type = .COMPARATOR →
      COMPARATOR_ALIASES (strLower tk.value) ∈ (["=", "~", "<", "<=", ">", ">="] : List String) ∧
      ∀ p v : String, mkCondition p (strLower tk.value) v =
        .condition p (COMPARATOR_ALIASES (strLower tk.value)) v) := by
  refine ⟨fun p v => ⟨rfl, rfl⟩, fun s toks h tk htk hcomp => ⟨?_, fun p v => rfl⟩⟩
  have hv := lexComparatorValues _ _ _ h tk htk hcomp
  simp only [List.mem_cons, List.not_mem_nil, or_false] at hv ⊢
  rcases hv with h' | h' | h' | h' | h' | h' | h' | h' <;> rw [h'] <;> decide

/-- Witness for C5: the comparator token of `a is b` normalizes into the
canonical set. -/
theorem C5_witness :
    COMPARATOR_ALIASES (strLower (Tok.mk .COMPARATOR "is").value) ∈
      (["=", "~", "<", "<=", ">", ">="] : List String) ∧
    mkCondition "a" (strLower (Tok.mk .COMPARATOR "is").value) "b" =
      .condition "a" (COMPARATOR_ALIASES (strLower (Tok.mk .COMPARATOR "is").value)) "b" := by
  have h := (C5_comparator_normalization.2 "a is b"
    [⟨.TEXT, "a"⟩, ⟨.COMPARATOR, "is"⟩, ⟨.TEXT, "b"⟩] rfl
    ⟨.COMPARATOR, "is"⟩ (by decide) rfl)
  exact ⟨h.1, h.2 "a" "b"⟩

/-! ## Claim C7: the empty-string equality special case -/

theorem strLower_empty : strLower "" = "" := rfl

theorem stringEvalIff (db : DB) (r : ValueRow) (lk : TextLookup) (v : String) :
    VLookup.eval db r (.string_value lk v) = true ↔
      ∃ s, r.string_value = some s ∧ textMatch lk s v = true := by
  cases hs : r.string_value <;> simp [VLookup.eval, hs]

/-- C7 (amended): the field-absence special case for `= ""` holds when the
condition is compiled *standalone* (for a field of any value type): the
predicate matches exactly the entities with no recorded value row for the
field.  As a child of a `SinglePropCombination` over that field the special
case is bypassed: the child contributes its type-specific parameter set, so
for a text field the compiled predicate instead requires a recorded value
that case-insensitively equals the empty string. -/
theorem C7_empty_value_semantics (org : Org) (pm : List (String × PropEntry))
    (prop : String) (f : ContactField)
    (hprop : prop ≠ IMPLICIT_PROP) (hlook : pmLookup pm prop = some (.field f)) :
    (QueryNode.as_query org pm (.condition prop "=" "") =
      .ok (Q.qnot (Q.value_in (VQ.filt [.contact_field f]))) ∧
     ∀ (db : DB) (c : Contact),
       ((Q.qnot (Q.value_in (VQ.filt [.contact_field f]))).eval db c = true ↔
         ¬ ∃ r ∈ db.values, r.contact_id = c.id ∧ r.contact_field = f)) ∧
    (f.value_type = .text → ∀ op : BOp,
      QueryNode.as_query org pm (.singlePropComb prop op [.condition prop "=" ""]) =
        .ok (Q.value_in (VQ.and (VQ.filt [.contact_field f])
          (VQ.filt [.string_value .iexact ""]))) ∧
      ∀ (db : DB) (c : Contact),
        ((Q.value_in (VQ.and (VQ.filt [.contact_field f])
            (VQ.filt [.string_value .iexact ""]))).eval db c = true ↔
          ∃ r ∈ db.values, r.contact_id = c.id ∧ r.contact_field = f ∧
            ∃ s, r.string_value = some s ∧ strLower s = "")) := by
  refine ⟨⟨?_, ?_⟩, ?_⟩
  · simp only [QueryNode.as_query, condition_as_query, if_neg hprop, hlook]
    rw [if_pos (by decide)]
  · intro db c
    simp [Q.eval, VQ.eval, VLookup.eval, List.any_eq_true, beq_iff_eq, and_assoc]
  · intro hty op
    obtain ⟨k, vt, ia, os⟩ := f
    simp only at hty
    subst hty
    constructor
    · simp only [QueryNode.as_query, hlook, mapChildParams, childParams,
        build_value_query_params, build_text_field_params, TEXT_LOOKUPS, reduceIte,
        delContactField, List.filter, reduceVQ, List.foldl]
      rfl
    · intro db c
      simp only [Q.eval, VQ.eval, List.any_eq_true, Bool.and_eq_true, List.all_cons,
        List.all_nil, VLookup.eval, beq_iff_eq, textMatch, iexact, strLower_empty,
        and_true, and_assoc]
      constructor
      · rintro ⟨x, hx, h1, h2, h3⟩
        rcases hs : x.string_value with _ | s
        · rw [hs] at h3; cases h3
        · rw [hs] at h3
          exact ⟨x, hx, h1, h2, s, hs, by simpa using h3⟩
      · rintro ⟨r, hr, h1, h2, s, hs, h3⟩
        refine ⟨r, hr, h1, h2, ?_⟩
        rw [hs]
        simpa using h3

/-- Witness for C7: the standalone `email = ""` condition compiles to the
absence query for the `email` field. -/
theorem C7_witness :
    QueryNode.as_query exOrg [("email", PropEntry.field exFieldEmail)]
        (.condition "email" "=" "") =
      .ok (Q.qnot (Q.value_in (VQ.filt [.contact_field exFieldEmail]))) :=
  (C7_empty_value_semantics exOrg [("email", PropEntry.field exFieldEmail)] "email"
    exFieldEmail (by decide) rfl).1.1

/-! ## Claim C3: property-resolution precedence

The passes of `get_prop_map` are characterized by `resolveProp`: because the
attribute and scheme passes run after (and overwrite) the field pass, a
searchable scheme or attribute beats an active custom field of the same key —
the *last* match wins, not the first. -/


/-- Keys of an (option-valued) property map under construction. -/
def mkeys (m : List (String × Option PropEntry)) : List String := m.map (fun kv => kv.1)

/-- The stored (possibly still unresolved) value at a key. -/
def mval : List (String × Option PropEntry) → String → Option (Option PropEntry)
  | [], _ => none
  | kv :: rest, k => if kv.1 == k then some kv.2 else mval rest k

/-- What the fields pass stores at key `k`: the last assignment wins. -/
def foldKey (fs : List ContactField) (k : String) (acc : Option PropEntry) : Option PropEntry :=
  fs.foldl (fun a f => if f.key == k then some (.field f) else a) acc

/-- The value `get_prop_map` resolves a referenced name to: schemes beat
attributes beat fields, because the passes run fields, then attributes, then
schemes, each overwriting what is already there. -/
def resolveProp (org : Org) (k : String) : Option PropEntry :=
  if k ∈ SEARCHABLE_SCHEMES then some (.scheme k)
  else if k ∈ SEARCHABLE_ATTRIBUTES then some (.attribute k)
  else foldKey (org.fields.filter (fun f => f.key == k && f.is_active)) k none

/-- The distinct non-implicit property names of a query, in first-occurrence order. -/
def propsOf (q : ContactQuery) : List String :=
  dedupFirst (q.root.get_prop_names.filter (fun p => p ≠ IMPLICIT_PROP))

theorem setKey_cons (kv : String × Option PropEntry) (m : List (String × Option PropEntry))
    (k : String) (v : PropEntry) :
    setKey (kv :: m) k v = (if kv.1 == k then (kv.1, some v) else kv) :: setKey m k v := rfl

theorem mval_setKey_same {m : List (String × Option PropEntry)} {k : String}
    (h : (mval m k).isSome) (v : PropEntry) :
    mval (setKey m k v) k = some (some v) := by
  induction m with
  | nil => simp [mval] at h
  | cons kv m ih =>
    rw [setKey_cons]
    by_cases hk : kv.1 = k
    · simp [mval, hk]
    · have h' : (mval m k).isSome := by simpa [mval, hk] using h
      simp [mval, hk, ih h']

theorem mval_setKey_other {m : List (String × Option PropEntry)} {k k' : String}
    (h : k' ≠ k) (v : PropEntry) :
    mval (setKey m k v) k' = mval m k' := by
  induction m with
  | nil => simp [mval, setKey]
  | cons kv m ih =>
    rw [setKey_cons]
    by_cases hk : kv.1 = k
    · have hne : kv.1 ≠ k' := by rw [hk]; exact Ne.symm h
      simp [mval, hk, hne, Ne.symm h, ih]
    · by_cases hk' : kv.1 = k'
      · simp [mval, hk, hk', h]
      · simp [mval, hk, hk', ih]

theorem mval_setKey_none {m : List (String × Option PropEntry)} {k k' : String}
    (h : mval m k' = none) (v : PropEntry) :
    mval (setKey m k v) k' = none := by
  induction m with
  | nil => simp [mval, setKey]
  | cons kv m ih =>
    rw [setKey_cons]
    by_cases hk' : kv.1 = k'
    · simp [mval, hk'] at h
    · have h' : mval m k' = none := by simpa [mval, hk'] using h
      by_cases hk : kv.1 = k
      · have hkk : ¬k = k' := fun hh => hk' (by rw [hk, hh])
        simp [mval, hk, hk', hkk, ih h']
      · simp [mval, hk, hk', ih h']

theorem mval_m0 (props : List String) (k : String) :
    mval (props.map (fun p => (p, none))) k = if k ∈ props then some none else none := by
  induction props with
  | nil => simp [mval]
  | cons p ps ih =>
    by_cases h : p = k
    · simp [mval, h]
    · simp only [List.map_cons, mval, beq_iff_eq, if_neg h, List.mem_cons, ih]
      by_cases hm : k ∈ ps
      · rw [if_pos hm, if_pos (Or.inr hm)]
      · rw [if_neg hm, if_neg (by rintro (rfl | hh); exacts [h rfl, hm hh])]

theorem mval_foldFields (fs : List ContactField) :
    ∀ (m : List (String × Option PropEntry)) (k : String) (a : Option PropEntry),
    mval m k = some a →
    mval (fs.foldl (fun m f => setKey m f.key (.field f)) m) k = some (foldKey fs k a) := by
  induction fs with
  | nil => intro m k a h; simpa [foldKey] using h
  | cons f fs ih =>
    intro m k a h
    by_cases hk : f.key = k
    · have h1 : mval (setKey m f.key (.field f)) k = some (some (.field f)) := by
        rw [hk]; exact mval_setKey_same (by simp [h]) _
      simpa [foldKey, List.foldl, hk] using ih _ k (some (.field f)) h1
    · have h1 : mval (setKey m f.key (.field f)) k = some a := by
        rw [mval_setKey_other (fun hh => hk hh.symm)]; exact h
      simpa [foldKey, List.foldl, hk] using ih _ k a h1

theorem mval_foldFields_none (fs : List ContactField) :
    ∀ (m : List (String × Option PropEntry)) (k : String),
    mval m k = none →
    mval (fs.foldl (fun m f => setKey m f.key (.field f)) m) k = none := by
  induction fs with
  | nil => intro m k h; simpa using h
  | cons f fs ih =>
    intro m k h
    exact ih _ k (mval_setKey_none h _)

theorem foldKey_filter (l : List ContactField) (k : String) (acc : Option PropEntry) :
    foldKey l k acc = foldKey (l.filter (fun f => f.key == k)) k acc := by
  induction l generalizing acc with
  | nil => rfl
  | cons f fs ih =>
    by_cases h : f.key = k
    · rw [List.filter_cons_of_pos (by simpa using h)]
      simp only [foldKey, List.foldl, if_pos (show (f.key == k) = true by simpa using h)]
      exact ih _
    · rw [List.filter_cons_of_neg (by simpa using h)]
      simp only [foldKey, List.foldl]
      rw [if_neg (by simpa using h)]
      exact ih _


theorem scontains_iff (l : List String) (a : String) : l.contains a = true ↔ a ∈ l :=
  List.elem_iff

theorem finishPropMap_ok_iff (l : List (String × Option PropEntry)) :
    (finishPropMap l).isOk = true ↔ ∀ kv ∈ l, kv.2.isSome := by
  induction l with
  | nil => simp [finishPropMap, Except.isOk, Except.toBool]
  | cons kv rest ih =>
    match kv with
    | (k, none) => simp [finishPropMap, Except.isOk, Except.toBool]
    | (k, some v) =>
      simp only [finishPropMap]
      cases hfin : finishPropMap rest with
      | error e =>
        rw [hfin] at ih
        simp only [Except.map, Except.isOk, Except.toBool]
        constructor
        · intro h; cases h
        · intro h
          have h2 := ih.mpr (fun x hx => h x (List.mem_cons_of_mem _ hx))
          simp [Except.isOk, Except.toBool] at h2
      | ok m =>
        rw [hfin] at ih
        simp only [Except.map, Except.isOk, Except.toBool]
        constructor
        · intro _ x hx
          rcases List.mem_cons.mp hx with rfl | hx
          · rfl
          · exact ih.mp rfl x hx
        · intro _
          trivial

theorem finishPropMap_lookup :
    ∀ (l : List (String × Option PropEntry)) (m : List (String × PropEntry)),
    finishPropMap l = .ok m → ∀ k, pmLookup m k =
      (match mval l k with
       | some (some e) => some e
       | _ => none) := by
  intro l
  induction l with
  | nil =>
    intro m h k
    simp only [finishPropMap, Except.ok.injEq] at h
    subst h
    rfl
  | cons kv rest ih =>
    intro m h k
    match kv with
    | (k0, none) => simp [finishPropMap] at h
    | (k0, some v) =>
      simp only [finishPropMap] at h
      cases hfin : finishPropMap rest with
      | error e => rw [hfin] at h; simp [Except.map] at h
      | ok m' =>
        rw [hfin] at h
        simp only [Except.map, Except.ok.injEq] at h
        subst h
        by_cases hk : k0 = k
        · simp [pmLookup, mval, hk]
        · simp only [pmLookup, mval, beq_iff_eq, if_neg hk]
          exact ih m' hfin k


/-- The property map just before the final unresolved-name check, with the
three passes written out (definitionally what `get_prop_map` builds). -/
def buildPropMap (q : ContactQuery) (org : Org) : List (String × Option PropEntry) :=
  let props := propsOf q
  let m0 : List (String × Option PropEntry) := props.map (fun p => (p, none))
  let m1 := (org.fields.filter (fun f => props.contains f.key && f.is_active)).foldl
    (fun m f => setKey m f.key (.field f)) m0
  let m2 := SEARCHABLE_ATTRIBUTES.foldl
    (fun m a => if props.contains a then setKey m a (.attribute a) else m) m1
  SEARCHABLE_SCHEMES.foldl
    (fun m s => if props.contains s then setKey m s (.scheme s) else m) m2

theorem get_prop_map_eq (q : ContactQuery) (org : Org) :
    q.get_prop_map org = finishPropMap (buildPropMap q org) := rfl

theorem mval_guardStep {m : List (String × Option PropEntry)} {s k : String}
    (cond : Bool) (v : PropEntry) (h : k ≠ s) :
    mval (if cond = true then setKey m s v else m) k = mval m k := by
  split_ifs with hc
  · exact mval_setKey_other h v
  · rfl

theorem mval_guardStep_none {m : List (String × Option PropEntry)} {s k : String}
    (cond : Bool) (v : PropEntry) (h : mval m k = none) :
    mval (if cond = true then setKey m s v else m) k = none := by
  split_ifs with hc
  · exact mval_setKey_none h v
  · exact h

theorem foldKey_props_filter (org : Org) (props : List String) (k : String) (hk : k ∈ props) :
    foldKey (org.fields.filter (fun f => props.contains f.key && f.is_active)) k none =
    foldKey (org.fields.filter (fun f => f.key == k && f.is_active)) k none := by
  rw [foldKey_filter, foldKey_filter (org.fields.filter (fun f => f.key == k && f.is_active))]
  rw [List.filter_filter, List.filter_filter]
  congr 1
  apply List.filter_congr
  intro f _
  by_cases hfk : f.key = k
  · rw [hfk]
    simp [decide_eq_true hk]
  · have hb : (f.key == k) = false := by simpa using hfk
    simp [hb]

theorem mval_after_passes (props : List String) (m : List (String × Option PropEntry))
    (k : String) (a : Option PropEntry) (hm : mval m k = some a) (hkp : k ∈ props) :
    mval (SEARCHABLE_SCHEMES.foldl
      (fun m s => if props.contains s then setKey m s (.scheme s) else m)
      (SEARCHABLE_ATTRIBUTES.foldl
        (fun m a2 => if props.contains a2 then setKey m a2 (.attribute a2) else m) m)) k =
    some (if k ∈ SEARCHABLE_SCHEMES then some (.scheme k)
          else if k ∈ SEARCHABLE_ATTRIBUTES then some (.attribute k) else a) := by
  simp only [SEARCHABLE_ATTRIBUTES, SEARCHABLE_SCHEMES, List.foldl]
  have hcont := (scontains_iff props k).mpr hkp
  by_cases h1 : k = "tel"
  · subst h1
    rw [mval_guardStep _ _ (by decide), if_pos hcont]
    rw [mval_setKey_same (by rw [mval_guardStep _ _ (by decide), hm]; rfl) _]
    simp
  · by_cases h2 : k = "twitter"
    · subst h2
      rw [if_pos hcont]
      rw [mval_setKey_same ?_ _]
      · simp
      · rw [mval_guardStep _ _ (by decide), mval_guardStep _ _ (by decide), hm]; rfl
    · by_cases h3 : k = "name"
      · subst h3
        rw [mval_guardStep _ _ (by decide), mval_guardStep _ _ (by decide), if_pos hcont]
        rw [mval_setKey_same (by rw [hm]; rfl) _]
        simp
      · rw [mval_guardStep _ _ h2, mval_guardStep _ _ h1, mval_guardStep _ _ h3, hm]
        have : ¬ k ∈ (["tel", "twitter"] : List String) := by simp [h1, h2]
        rw [if_neg this, if_neg (by simp [h3])]

theorem mval_buildPropMap (q : ContactQuery) (org : Org) (k : String) :
    mval (buildPropMap q org) k =
      if k ∈ propsOf q then some (resolveProp org k) else none := by
  by_cases hmem : k ∈ propsOf q
  · rw [if_pos hmem]
    have hm0 : mval ((propsOf q).map (fun p => (p, none))) k = some none := by
      rw [mval_m0, if_pos hmem]
    have hm1 := mval_foldFields
      (org.fields.filter (fun f => (propsOf q).contains f.key && f.is_active)) _ k none hm0
    simp only [buildPropMap]
    rw [mval_after_passes (propsOf q) _ k _ hm1 hmem]
    unfold resolveProp
    split_ifs with hs ha
    · rfl
    · rfl
    · rw [foldKey_props_filter org (propsOf q) k hmem]
  · rw [if_neg hmem]
    have hm0 : mval ((propsOf q).map (fun p => (p, none))) k = none := by
      rw [mval_m0, if_neg hmem]
    have hm1 := mval_foldFields_none
      (org.fields.filter (fun f => (propsOf q).contains f.key && f.is_active)) _ k hm0
    simp only [buildPropMap]
    simp only [SEARCHABLE_ATTRIBUTES, SEARCHABLE_SCHEMES, List.foldl]
    exact mval_guardStep_none _ _ (mval_guardStep_none _ _ (mval_guardStep_none _ _ hm1))

theorem get_prop_map_lookup {q : ContactQuery} {org : Org} {m : List (String × PropEntry)}
    (h : q.get_prop_map org = .ok m) (k : String) :
    pmLookup m k = if k ∈ propsOf q then resolveProp org k else none := by
  have hl := finishPropMap_lookup _ m (by rw [← get_prop_map_eq]; exact h) k
  rw [mval_buildPropMap] at hl
  by_cases hm : k ∈ propsOf q
  · rw [if_pos hm] at hl ⊢
    cases hr : resolveProp org k with
    | none => rw [hr] at hl; simpa using hl
    | some e => rw [hr] at hl; simpa using hl
  · rw [if_neg hm] at hl ⊢
    simpa using hl

theorem foldKey_some : ∀ (fs : List ContactField) (k : String) (acc : Option PropEntry)
    (e : PropEntry), foldKey fs k acc = some e →
    (∃ f ∈ fs, f.key = k ∧ e = .field f) ∨ acc = some e := by
  intro fs
  induction fs with
  | nil => intro k acc e h; exact Or.inr h
  | cons f fs ih =>
    intro k acc e h
    by_cases hk : f.key = k
    · simp only [foldKey, List.foldl, if_pos (show (f.key == k) = true by simpa using hk)] at h
      rcases ih k _ e h with ⟨g, hg, hgk, hge⟩ | hacc
      · exact Or.inl ⟨g, List.mem_cons_of_mem _ hg, hgk, hge⟩
      · exact Or.inl ⟨f, List.mem_cons_self _ _, hk, by simpa using hacc.symm⟩
    · simp only [foldKey, List.foldl, if_neg (show ¬(f.key == k) = true by simpa using hk)] at h
      rcases ih k acc e h with ⟨g, hg, hgk, hge⟩ | hacc
      · exact Or.inl ⟨g, List.mem_cons_of_mem _ hg, hgk, hge⟩
      · exact Or.inr hacc

theorem mval_mem : ∀ (l : List (String × Option PropEntry)) (k : String) (a : Option PropEntry),
    mval l k = some a → (k, a) ∈ l := by
  intro l
  induction l with
  | nil => intro k a h; cases h
  | cons kv rest ih =>
    intro k a h
    simp only [mval, beq_iff_eq] at h
    by_cases hk : kv.1 = k
    · rw [if_pos hk] at h
      have ha : a = kv.2 := ((Option.some.injEq _ _).mp h).symm
      rw [List.mem_cons]
      exact Or.inl (by rw [ha, ← hk])
    · rw [if_neg hk] at h
      exact List.mem_cons_of_mem _ (ih k a h)

/-- C3 (amended): `get_prop_map` assigns custom fields first, then searchable
attributes, then searchable URN schemes, each pass overwriting what is already
stored, so a name that is both an active custom-field key and a searchable
attribute or scheme resolves to the attribute/scheme (last match wins — the
claimed field precedence is reversed, see the counterexample); a referenced
name matching none of the three sources makes the whole resolution fail. -/
theorem C3_resolution_precedence (q : ContactQuery) (org : Org) :
    (∀ m, q.get_prop_map org = .ok m → ∀ k e, pmLookup m k = some e →
      (k ∈ SEARCHABLE_SCHEMES → e = .scheme k) ∧
      (k ∉ SEARCHABLE_SCHEMES → k ∈ SEARCHABLE_ATTRIBUTES → e = .attribute k) ∧
      (k ∉ SEARCHABLE_SCHEMES → k ∉ SEARCHABLE_ATTRIBUTES →
        ∃ f ∈ org.fields, f.is_active = true ∧ f.key = k ∧ e = .field f)) ∧
    (∀ k, k ∈ propsOf q → k ∉ SEARCHABLE_SCHEMES → k ∉ SEARCHABLE_ATTRIBUTES →
      (∀ f ∈ org.fields, ¬(f.is_active = true ∧ f.key = k)) →
      (q.get_prop_map org).isOk = false) := by
  constructor
  · intro m h k e hk
    have hl := get_prop_map_lookup h k
    rw [hk] at hl
    by_cases hm : k ∈ propsOf q
    · rw [if_pos hm] at hl
      refine ⟨?_, ?_, ?_⟩
      · intro hs
        rw [resolveProp, if_pos hs] at hl
        exact (Option.some.injEq _ _).mp hl.symm |>.symm ▸ rfl
      · intro hs ha
        rw [resolveProp, if_neg hs, if_pos ha] at hl
        cases hl; rfl
      · intro hs ha
        rw [resolveProp, if_neg hs, if_neg ha] at hl
        rcases foldKey_some _ k none e hl.symm with ⟨f, hf, hfk, hfe⟩ | hno
        · rw [List.mem_filter] at hf
          refine ⟨f, hf.1, ?_, hfk, hfe⟩
          have := hf.2
          simp only [Bool.and_eq_true] at this
          exact this.2
        · cases hno
    · rw [if_neg hm] at hl; cases hl
  · intro k hkp hs ha hnofield
    have hval : mval (buildPropMap q org) k = some none := by
      rw [mval_buildPropMap, if_pos hkp, resolveProp, if_neg hs, if_neg ha]
      have : org.fields.filter (fun f => f.key == k && f.is_active) = [] := by
        rw [List.filter_eq_nil_iff]
        intro f hf
        simp only [Bool.and_eq_true, beq_iff_eq, not_and]
        intro hfk hact
        exact hnofield f hf ⟨hact, hfk⟩
      rw [this]
      rfl
    rw [get_prop_map_eq]
    cases hok : (finishPropMap (buildPropMap q org)).isOk with
    | false => rfl
    | true =>
      have hall := (finishPropMap_ok_iff _).mp hok
      have := hall (k, none) (mval_mem _ k none hval)
      simp at this

namespace Zzz
end Zzz
/-- Witness for C3: the name `age` (neither scheme nor attribute) resolves to
the active custom field `age` of the example organization. -/
theorem C3_witness :
    ∃ f ∈ exOrg.fields, f.is_active = true ∧ f.key = "age" ∧
      PropEntry.field exFieldAge = PropEntry.field f :=
  ((C3_resolution_precedence (ContactQuery.mk (.condition "age" "=" "3")) exOrg).1
    [("age", PropEntry.field exFieldAge)] rfl "age" (PropEntry.field exFieldAge) rfl).2.2
    (by decide) (by decide)

/-! ## Claim C8: parser precedence

The composition lemmas below compute the lexer on spliced inputs: a maximal
text run produces one TEXT/reserved token, whitespace is skipped, and each
comparator consumes exactly its characters; `lexChars_fuel` shows the fuel
value is irrelevant once it exceeds the input length. -/


theorem length_dropWhile_le (p : Char → Bool) (l : List Char) :
    (l.dropWhile p).length ≤ l.length := by
  induction l with
  | nil => simp [List.dropWhile]
  | cons c cs ih =>
    by_cases h : p c
    · simp only [List.dropWhile, h]
      exact le_trans ih (by simp)
    · simp [List.dropWhile, h]

theorem lexChars_fuel : ∀ (f1 f2 : Nat) (cs : List Char),
    cs.length < f1 → cs.length < f2 → lexChars f1 cs = lexChars f2 cs := by
  intro f1
  induction f1 with
  | zero => intro f2 cs h1 _; exact absurd h1 (by omega)
  | succ f1 ih =>
    intro f2 cs h1 h2
    match f2, cs with
    | 0, cs => exact absurd h2 (by omega)
    | g + 1, [] => rfl
    | g + 1, c :: cs =>
      have hb1 : cs.length < f1 := by simp at h1; omega
      have hb2 : cs.length < g := by simp at h2; omega
      have htl : cs.tail.length ≤ cs.length := by cases cs <;> simp
      have hdw := length_dropWhile_le (fun d => !(d == '"')) cs
      have hdwt : (cs.dropWhile (fun d => !(d == '"'))).tail.length ≤
          (cs.dropWhile (fun d => !(d == '"'))).length := by
        cases cs.dropWhile (fun d => !(d == '"')) <;> simp
      have hdw2 := length_dropWhile_le isTextChar cs
      simp only [lexChars]
      split_ifs
      · exact ih _ _ hb1 hb2
      · rw [ih g cs hb1 hb2]
      · rw [ih g cs hb1 hb2]
      · rw [ih g cs.tail (by omega) (by omega)]
      · rw [ih g cs hb1 hb2]
      · rw [ih g (cs.dropWhile (fun d => !(d == '"'))).tail (by omega) (by omega)]
      · rfl
      · rw [ih g (cs.dropWhile isTextChar) (by omega) (by omega)]
      · rw [ih g cs hb1 hb2]
      · rw [ih g cs hb1 hb2]
      · rfl

/-- Run the lexer with its canonical fuel. -/
def lexAll (cs : List Char) : Except String (List Tok) := lexChars (cs.length + 1) cs

theorem tokenize_eq (s : String) : tokenize s = lexAll s.data := rfl

theorem lexChars_eq_lexAll {fuel : Nat} {cs : List Char} (h : cs.length < fuel) :
    lexChars fuel cs = lexAll cs :=
  lexChars_fuel fuel (cs.length + 1) cs h (by omega)

/-- Does the list start with a character failing `p` (or end)? -/
def headFails (p : Char → Bool) : List Char → Bool
  | [] => true
  | x :: _ => !p x

theorem takeWhile_append_all {p : Char → Bool} : ∀ (l r : List Char),
    (∀ a ∈ l, p a = true) → headFails p r = true → (l ++ r).takeWhile p = l := by
  intro l r hl hr
  induction l with
  | nil =>
    match r, hr with
    | [], _ => rfl
    | x :: r', hr => simp only [List.nil_append, List.takeWhile]
                     simp only [headFails, Bool.not_eq_true'] at hr
                     rw [hr]
  | cons a l ih =>
    simp only [List.cons_append, List.takeWhile, hl a (by simp)]
    exact congrArg (fun x => a :: x) (ih (fun x hx => hl x (by simp [hx])))

theorem dropWhile_append_all {p : Char → Bool} : ∀ (l r : List Char),
    (∀ a ∈ l, p a = true) → headFails p r = true → (l ++ r).dropWhile p = r := by
  intro l r hl hr
  induction l with
  | nil =>
    match r, hr with
    | [], _ => rfl
    | x :: r', hr => simp only [List.nil_append, List.dropWhile]
                     simp only [headFails, Bool.not_eq_true'] at hr
                     rw [hr]
  | cons a l ih =>
    simp only [List.cons_append, List.dropWhile, hl a (by simp)]
    exact ih (fun x hx => hl x (by simp [hx]))

theorem textChar_beq_false {c d : Char} (h : isTextChar c = true) (hd : isTextChar d = false) :
    (c == d) = false := by
  cases hbeq : c == d
  · rfl
  · rw [beq_iff_eq] at hbeq
    subst hbeq
    rw [h] at hd
    cases hd

theorem lexAll_text (run rest : List Char)
    (hne : run ≠ []) (hall : ∀ ch ∈ run, isTextChar ch = true)
    (hrest : headFails isTextChar rest = true) :
    lexAll (run ++ rest) =
      (lexAll rest).map
        (fun ts => ⟨reservedType (strLower (String.mk run)), String.mk run⟩ :: ts) := by
  match run, hne with
  | c :: crest, _ =>
    have hc : isTextChar c = true := hall c (by simp)
    have hcrest : ∀ ch ∈ crest, isTextChar ch = true := fun ch hch => hall ch (by simp [hch])
    show lexChars _ (c :: (crest ++ rest)) = _
    simp only [lexAll, lexChars]
    rw [if_neg (by rw [textChar_beq_false hc (by decide), textChar_beq_false hc (by decide)]; simp),
        if_neg (by rw [textChar_beq_false hc (by decide)]; simp),
        if_neg (by rw [textChar_beq_false hc (by decide)]; simp),
        if_neg (by rw [textChar_beq_false hc (by decide), textChar_beq_false hc (by decide)]; simp),
        if_neg (by rw [textChar_beq_false hc (by decide)]; simp),
        if_pos hc]
    rw [takeWhile_append_all crest rest hcrest hrest,
        dropWhile_append_all crest rest hcrest hrest]
    rw [lexChars_eq_lexAll (by simp; omega)]
    rfl


theorem lexAll_space (rest : List Char) : lexAll (' ' :: rest) = lexAll rest := by
  simp [lexAll, lexChars]

theorem isTextWord_spec {s : String} (h : isTextWord s = true) :
    s.data ≠ [] ∧ (∀ ch ∈ s.data, isTextChar ch = true) ∧
      reservedType (strLower s) = .TEXT := by
  simp only [isTextWord, Bool.and_eq_true, Bool.not_eq_true', List.all_eq_true,
    Bool.or_eq_false_iff, beq_eq_false_iff_ne] at h
  obtain ⟨⟨hne, hall⟩, ⟨⟨⟨r1, r2⟩, r3⟩, r4⟩⟩ := h
  refine ⟨by simpa using hne, hall, ?_⟩
  unfold reservedType
  rw [if_neg r1, if_neg r2, if_neg r3, if_neg r4]


theorem strMk_data (s : String) : String.mk s.data = s := rfl

theorem lexAll_text_only (run : List Char) (hne : run ≠ [])
    (hall : ∀ ch ∈ run, isTextChar ch = true) :
    lexAll run = .ok [⟨reservedType (strLower (String.mk run)), String.mk run⟩] := by
  have h := lexAll_text run [] hne hall rfl
  simpa [lexAll, lexChars, Except.map] using h

theorem lexAll_text_cons (run : List Char) (x : Char) (r : List Char) (hne : run ≠ [])
    (hall : ∀ ch ∈ run, isTextChar ch = true) (hx : isTextChar x = false) :
    lexAll (run ++ x :: r) =
      (lexAll (x :: r)).map
        (fun ts => ⟨reservedType (strLower (String.mk run)), String.mk run⟩ :: ts) :=
  lexAll_text run (x :: r) hne hall (by simp [headFails, hx])

theorem tokenize_three_or (a b c : String) (ha : isTextWord a = true)
    (hb : isTextWord b = true) (hc : isTextWord c = true) :
    tokenize (a ++ " " ++ b ++ " OR " ++ c) =
      .ok [⟨.TEXT, a⟩, ⟨.TEXT, b⟩, ⟨.OR, "OR"⟩, ⟨.TEXT, c⟩] := by
  obtain ⟨hane, haall, hares⟩ := isTextWord_spec ha
  obtain ⟨hbne, hball, hbres⟩ := isTextWord_spec hb
  obtain ⟨hcne, hcall, hcres⟩ := isTextWord_spec hc
  rw [tokenize_eq]
  have hdata : (a ++ " " ++ b ++ " OR " ++ c).data =
      a.data ++ (' ' :: (b.data ++ (' ' :: (['O', 'R'] ++ (' ' :: c.data))))) := by
    simp [String.data_append]
  rw [hdata]
  rw [lexAll_text_cons a.data ' ' _ hane haall (by decide), lexAll_space,
      lexAll_text_cons b.data ' ' _ hbne hball (by decide), lexAll_space,
      lexAll_text_cons ['O', 'R'] ' ' _ (by simp) (by decide) (by decide), lexAll_space,
      lexAll_text_only c.data hcne hcall]
  simp [Except.map, strMk_data, hares, hbres, hcres]
  rfl

theorem tokenize_three_and_or (a b c : String) (ha : isTextWord a = true)
    (hb : isTextWord b = true) (hc : isTextWord c = true) :
    tokenize (a ++ " AND " ++ b ++ " OR " ++ c) =
      .ok [⟨.TEXT, a⟩, ⟨.AND, "AND"⟩, ⟨.TEXT, b⟩, ⟨.OR, "OR"⟩, ⟨.TEXT, c⟩] := by
  obtain ⟨hane, haall, hares⟩ := isTextWord_spec ha
  obtain ⟨hbne, hball, hbres⟩ := isTextWord_spec hb
  obtain ⟨hcne, hcall, hcres⟩ := isTextWord_spec hc
  rw [tokenize_eq]
  have hdata : (a ++ " AND " ++ b ++ " OR " ++ c).data =
      a.data ++ (' ' :: (['A', 'N', 'D'] ++ (' ' :: (b.data ++
        (' ' :: (['O', 'R'] ++ (' ' :: c.data))))))) := by
    simp [String.data_append]
  rw [hdata]
  rw [lexAll_text_cons a.data ' ' _ hane haall (by decide), lexAll_space,
      lexAll_text_cons ['A', 'N', 'D'] ' ' _ (by simp) (by decide) (by decide), lexAll_space,
      lexAll_text_cons b.data ' ' _ hbne hball (by decide), lexAll_space,
      lexAll_text_cons ['O', 'R'] ' ' _ (by simp) (by decide) (by decide), lexAll_space,
      lexAll_text_only c.data hcne hcall]
  simp [Except.map, strMk_data, hares, hbres, hcres]
  exact ⟨by decide, by decide⟩



/-- C8: implicit AND (juxtaposition) sits at AND's precedence relative to OR:
both `a b OR c` and `a AND b OR c` parse to `OR(AND(a, b), c)` for any three
plain words. -/
theorem C8_precedence (a b c : String) (ha : isTextWord a = true) (hb : isTextWord b = true)
    (hc : isTextWord c = true) :
    parse_query (a ++ " " ++ b ++ " OR " ++ c) false =
      .ok ⟨.boolComb .or [.boolComb .and
        [.condition "*" "=" a, .condition "*" "=" b], .condition "*" "=" c]⟩ ∧
    parse_query (a ++ " AND " ++ b ++ " OR " ++ c) false =
      .ok ⟨.boolComb .or [.boolComb .and
        [.condition "*" "=" a, .condition "*" "=" b], .condition "*" "=" c]⟩ := by
  constructor
  · rw [parse_query, parseText, tokenize_three_or a b c ha hb hc]
    rfl
  · rw [parse_query, parseText, tokenize_three_and_or a b c ha hb hc]
    rfl

/-- Witness for C8: concrete words. -/
theorem C8_witness :
    parse_query ("blue" ++ " " ++ "shoes" ++ " OR " ++ "hats") false =
      .ok ⟨.boolComb .or [.boolComb .and
        [.condition "*" "=" "blue", .condition "*" "=" "shoes"],
        .condition "*" "=" "hats"]⟩ :=
  (C8_precedence "blue" "shoes" "hats" (by decide) (by decide) (by decide)).1

end TembaSearch

namespace TembaSearch

/-! ## Claim C1: semantics of compiled combinations -/

/-- Unwrap a successful compilation (junk on error; only used under `isOk`). -/
def getOkQ : Except String Q → Q
  | .ok q => q
  | .error _ => Q.idEq (-7)

/-- Unwrap a successful parameter build (junk on error). -/
def getOkPs : Except String (List VLookup) → List VLookup
  | .ok ps => ps
  | .error _ => []

/-- The truth value a child contributes once compiled. -/
def evalChild (org : Org) (pm : List (String × PropEntry)) (db : DB) (ct : Contact)
    (c : QueryNode) : Bool :=
  (getOkQ (c.as_query org pm)).eval db ct

/-- `operator.and_` / `operator.or_` on booleans. -/
def bop : BOp → Bool → Bool → Bool
  | .and, a, b => a && b
  | .or, a, b => a || b

/-- The truth value of an operator applied across a list (`True`/`False` for
the empty conjunction/disjunction). -/
def evalOf : BOp → List Bool → Bool
  | .and, l => l.all id
  | .or, l => l.any id

theorem boolExt {a b : Bool} (h : a = true ↔ b = true) : a = b := by
  cases a <;> cases b <;> simp_all

theorem except_isOk_exists {α : Type} {e : Except String α} :
    e.isOk = true ↔ ∃ a, e = .ok a := by
  cases e <;> simp [Except.isOk, Except.toBool]

theorem ebind_ok {α β : Type} (a : α) (f : α → Except String β) :
    ((Except.ok a : Except String α) >>= f) = f a := rfl

theorem ebind_err {α β : Type} (e : String) (f : α → Except String β) :
    ((Except.error e : Except String α) >>= f) = Except.error e := rfl

theorem evalOf_cons (op : BOp) (x : Bool) (l : List Bool) :
    evalOf op (x :: l) = bop op x (evalOf op l) := by
  cases op <;> simp [evalOf, bop]

theorem evalOf_nil_bop (op : BOp) (x : Bool) : bop op (evalOf op []) x = x := by
  cases op <;> simp [evalOf, bop]

theorem evalOf_singleton (op : BOp) (x : Bool) : evalOf op [x] = x := by
  cases op <;> simp [evalOf]

theorem evalOf_append (op : BOp) (a b : List Bool) :
    evalOf op (a ++ b) = bop op (evalOf op a) (evalOf op b) := by
  cases op <;> simp [evalOf, bop, List.all_append, List.any_append]

theorem bop_assoc (op : BOp) (a b c : Bool) :
    bop op (bop op a b) c = bop op a (bop op b c) := by
  cases op <;> simp [bop, Bool.and_assoc, Bool.or_assoc]

/-- Bool-valued folds of `bop` compute `evalOf` of the mapped list. -/
theorem foldl_bop {α : Type} (op : BOp) (f : α → Bool) :
    ∀ (l : List α) (b : Bool),
    l.foldl (fun acc x => bop op acc (f x)) b = bop op b (evalOf op (l.map f)) := by
  intro l
  induction l with
  | nil => intro b; cases op <;> simp [evalOf, bop]
  | cons x xs ih =>
    intro b
    simp only [List.foldl, List.map_cons, evalOf_cons, ← bop_assoc, ih]

/-- Folding `applyOp` then evaluating equals `evalOf` over the children's
values. -/
theorem foldl_applyOp_eval (db : DB) (ct : Contact) (op : BOp) :
    ∀ (rest : List Q) (q : Q),
    ((rest.foldl (applyOp op) q).eval db ct) =
      evalOf op ((q :: rest).map (Q.eval db ct)) := by
  intro rest
  induction rest with
  | nil => intro q; simp [evalOf_cons, evalOf_nil_bop, List.map_nil]; cases op <;> simp [evalOf, bop]
  | cons r rs ih =>
    intro q
    have happ : ∀ a b : Q, (applyOp op a b).eval db ct = bop op (a.eval db ct) (b.eval db ct) := by
      intro a b; cases op <;> simp [applyOp, Q.eval, bop]
    simp only [List.foldl, ih, List.map_cons, evalOf_cons, happ, ← bop_assoc]

/-- Folding `applyVOp` likewise. -/
theorem foldl_applyVOp_eval (db : DB) (r : ValueRow) (op : BOp) :
    ∀ (rest : List VQ) (v : VQ),
    ((rest.foldl (applyVOp op) v).eval db r) =
      evalOf op ((v :: rest).map (VQ.eval db r)) := by
  intro rest
  induction rest with
  | nil => intro v; cases op <;> simp [evalOf, bop, VQ.eval]
  | cons x xs ih =>
    intro v
    have happ : ∀ a b : VQ, (applyVOp op a b).eval db r = bop op (a.eval db r) (b.eval db r) := by
      intro a b; cases op <;> simp [applyVOp, VQ.eval, bop]
    simp only [List.foldl, ih, List.map_cons, evalOf_cons, happ, ← bop_assoc]

/-- When every child compiles, the child-compilation loop succeeds with the
pointwise results. -/
theorem mapAsQuery_of_ok (org : Org) (pm : List (String × PropEntry)) :
    ∀ l : List QueryNode, (∀ c ∈ l, (QueryNode.as_query org pm c).isOk = true) →
    mapAsQuery org pm l = .ok (l.map (fun c => getOkQ (c.as_query org pm))) := by
  intro l
  induction l with
  | nil => intro _; rfl
  | cons c cs ih =>
    intro h
    obtain ⟨q, hq⟩ := except_isOk_exists.mp (h c (by simp))
    simp only [mapAsQuery, hq, ih (fun x hx => h x (by simp [hx])), List.map_cons]
    rfl

theorem mapAsQuery_ok_mem (org : Org) (pm : List (String × PropEntry)) :
    ∀ (l : List QueryNode) (qs : List Q), mapAsQuery org pm l = .ok qs →
    ∀ c ∈ l, (QueryNode.as_query org pm c).isOk = true := by
  intro l
  induction l with
  | nil => intro qs _ c hc; cases hc
  | cons c0 cs ih =>
    intro qs h c hc
    simp only [mapAsQuery] at h
    cases hq : QueryNode.as_query org pm c0 with
    | error e => rw [hq] at h; cases h
    | ok q0 =>
      rw [hq] at h
      simp only [ebind_ok] at h
      cases hrest : mapAsQuery org pm cs with
      | error e => rw [hrest] at h; cases h
      | ok qs' =>
        cases hc with
        | head => simp [hq, Except.isOk, Except.toBool]
        | tail _ hc => exact ih qs' hrest c hc

/-- `self.op` reduction of a nonempty compiled child list: the combination
compiles and evaluates to the operator applied across the children. -/
theorem reduceList_ok_eval (org : Org) (pm : List (String × PropEntry)) (db : DB)
    (ct : Contact) (op : BOp) (l : List QueryNode) (hne : l ≠ [])
    (hok : ∀ c ∈ l, (QueryNode.as_query org pm c).isOk = true) :
    ∃ q, (do
      let qs ← mapAsQuery org pm l
      reduceQ op qs) = Except.ok q ∧
      q.eval db ct = evalOf op (l.map (evalChild org pm db ct)) := by
  rw [mapAsQuery_of_ok org pm l hok]
  match l, hne with
  | c :: cs, _ =>
    refine ⟨_, rfl, ?_⟩
    simp only [List.map_cons, reduceQ, foldl_applyOp_eval, List.map_cons, List.map_map]
    rfl

/-- `BoolCombination.as_query` on a nonempty list of compiling children. -/
theorem comb_ok_eval (org : Org) (pm : List (String × PropEntry)) (db : DB)
    (ct : Contact) (op : BOp) (l : List QueryNode) (hne : l ≠ [])
    (hok : ∀ c ∈ l, (QueryNode.as_query org pm c).isOk = true) :
    ((QueryNode.boolComb op l).as_query org pm).isOk = true ∧
    evalChild org pm db ct (.boolComb op l) =
      evalOf op (l.map (evalChild org pm db ct)) := by
  obtain ⟨q, hq, he⟩ := reduceList_ok_eval org pm db ct op l hne hok
  have hq' : (QueryNode.boolComb op l).as_query org pm = .ok q := hq
  constructor
  · rw [hq']; rfl
  · rw [evalChild, hq']
    exact he

/-- Conversely, a combination only compiles when it has children and they all
compile. -/
theorem comb_ok_inv (org : Org) (pm : List (String × PropEntry)) (op : BOp)
    (l : List QueryNode) (h : ((QueryNode.boolComb op l).as_query org pm).isOk = true) :
    l ≠ [] ∧ ∀ c ∈ l, (QueryNode.as_query org pm c).isOk = true := by
  obtain ⟨q, hq⟩ := except_isOk_exists.mp h
  have hq' : (do
      let qs ← mapAsQuery org pm l
      reduceQ op qs) = Except.ok q := hq
  cases hm : mapAsQuery org pm l with
  | error e => rw [hm] at hq'; cases hq'
  | ok qs =>
    rw [hm] at hq'
    simp only [ebind_ok] at hq'
    constructor
    · rintro rfl
      simp only [mapAsQuery, Except.ok.injEq] at hm
      subst hm
      cases hq'
    · exact mapAsQuery_ok_mem org pm l qs hm

/-! ## Claim C1, stage A: `simplify` preserves compilation and semantics -/

theorem noSPCList_mem {l : List QueryNode} (h : noSPCList l = true) {c : QueryNode}
    (hc : c ∈ l) : noSPC c = true := by
  induction l with
  | nil => cases hc
  | cons d ds ih =>
    simp only [noSPCList, Bool.and_eq_true] at h
    cases hc with
    | head => exact h.1
    | tail _ hc => exact ih h.2 hc

theorem noSPCList_append (a b : List QueryNode) :
    noSPCList (a ++ b) = (noSPCList a && noSPCList b) := by
  induction a with
  | nil => simp [noSPCList]
  | cons c cs ih => simp [noSPCList, ih, Bool.and_assoc]

theorem simplifyLoop_noSPC (op : BOp) :
    ∀ (l acc s : List QueryNode), noSPCList l = true → noSPCList acc = true →
    simplifyLoop op acc l = some s → noSPCList s = true := by
  intro l
  induction l with
  | nil =>
    intro acc s _ hacc h
    simp only [simplifyLoop, Option.some.injEq] at h
    rw [← h]; exact hacc
  | cons c rest ih =>
    intro acc s hl hacc h
    have hc : noSPC c = true := noSPCList_mem hl (by simp)
    have hrest : noSPCList rest = true := by
      simp only [noSPCList, Bool.and_eq_true] at hl; exact hl.2
    cases c with
    | condition p cp v =>
      refine ih _ s hrest ?_ h
      rw [noSPCList_append, hacc]
      simp [noSPCList, noSPC]
    | boolComb op2 cs =>
      simp only [simplifyLoop] at h
      by_cases hop : op2 = op
      · rw [if_pos hop] at h
        refine ih _ s hrest ?_ h
        rw [noSPCList_append, hacc]
        simpa [noSPC] using hc
      · rw [if_neg hop] at h; cases h
    | singlePropComb p2 op2 cs => simp [noSPC] at hc

theorem noSPC_simplify : ∀ t, noSPC t = true → noSPC (QueryNode.simplify t) = true := by
  intro t
  induction t using queryNodeRec
    (L := fun l => noSPCList l = true → noSPCList (simplifyList l) = true) with
  | condition p c v => intro _; rfl
  | boolComb op cs ih =>
    intro hn
    simp only [noSPC] at hn
    have hcs' : noSPCList (simplifyList cs) = true := ih hn
    simp only [QueryNode.simplify]
    cases hloop : simplifyLoop op [] (simplifyList cs) with
    | none => simpa [noSPC] using hcs'
    | some s =>
      simpa [noSPC] using simplifyLoop_noSPC op (simplifyList cs) [] s hcs' rfl hloop
  | singlePropComb p op cs ih => intro hn; simp [noSPC] at hn
  | nil => rfl
  | cons c cs ihc ihcs =>
    rename_i hn
    simp only [noSPCList, Bool.and_eq_true] at hn
    simp only [simplifyList, noSPCList, Bool.and_eq_true]
    exact ⟨ihc hn.1, ihcs hn.2⟩

theorem simplifyList_noSPC {cs : List QueryNode} (h : noSPCList cs = true) :
    noSPCList (simplifyList cs) = true := by
  induction cs with
  | nil => exact h
  | cons c rest ih =>
    simp only [noSPCList, Bool.and_eq_true] at h
    simp only [simplifyList, noSPCList, Bool.and_eq_true]
    exact ⟨noSPC_simplify c h.1, ih h.2⟩

theorem simplifyLoop_ok_eval (org : Org) (pm : List (String × PropEntry)) (db : DB)
    (ct : Contact) (op : BOp) :
    ∀ (l acc s : List QueryNode), noSPCList l = true →
    simplifyLoop op acc l = some s →
    (∀ c ∈ l, (QueryNode.as_query org pm c).isOk = true) →
    (∀ c ∈ acc, (QueryNode.as_query org pm c).isOk = true) →
    (∀ x ∈ s, (QueryNode.as_query org pm x).isOk = true) ∧
    evalOf op (s.map (evalChild org pm db ct)) =
      bop op (evalOf op (acc.map (evalChild org pm db ct)))
             (evalOf op (l.map (evalChild org pm db ct))) ∧
    ((acc ≠ [] ∨ l ≠ []) → s ≠ []) := by
  intro l
  induction l with
  | nil =>
    intro acc s _ h _ hacc
    simp only [simplifyLoop, Option.some.injEq] at h
    subst h
    refine ⟨hacc, ?_, ?_⟩
    · cases op <;> simp [evalOf, bop]
    · rintro (hne | hne)
      · exact hne
      · exact absurd rfl hne
  | cons c rest ih =>
    intro acc s hl h hok hacc
    have hrest : noSPCList rest = true := by
      simp only [noSPCList, Bool.and_eq_true] at hl; exact hl.2
    have hokrest : ∀ x ∈ rest, (QueryNode.as_query org pm x).isOk = true :=
      fun x hx => hok x (by simp [hx])
    have hokc := hok c (by simp)
    cases c with
    | condition p cp v =>
      have hacc' : ∀ x ∈ acc ++ [QueryNode.condition p cp v],
          (QueryNode.as_query org pm x).isOk = true := by
        intro x hx
        rcases List.mem_append.mp hx with hx | hx
        · exact hacc x hx
        · rw [List.mem_singleton.mp hx]; exact hokc
      obtain ⟨hs, he, hne⟩ := ih _ s hrest h hokrest hacc'
      refine ⟨hs, ?_, fun _ => hne (Or.inl (by simp))⟩
      rw [he, List.map_append, evalOf_append]
      simp only [List.map_cons, List.map_nil, evalOf_cons, evalOf_nil_bop, bop_assoc]
    | boolComb op2 cs =>
      simp only [simplifyLoop] at h
      by_cases hop : op2 = op
      · subst hop
        rw [if_pos rfl] at h
        obtain ⟨hcne, hcok⟩ := comb_ok_inv org pm op2 cs hokc
        have hacc' : ∀ x ∈ acc ++ cs, (QueryNode.as_query org pm x).isOk = true := by
          intro x hx
          rcases List.mem_append.mp hx with hx | hx
          · exact hacc x hx
          · exact hcok x hx
        obtain ⟨hs, he, hne⟩ := ih _ s hrest h hokrest hacc'
        refine ⟨hs, ?_, fun _ => hne (Or.inl (by simp [hcne]))⟩
        rw [he, List.map_append, evalOf_append]
        have hcomb := (comb_ok_eval org pm db ct op2 cs hcne hcok).2
        simp only [List.map_cons, evalOf_cons, hcomb, bop_assoc]
      · rw [if_neg hop] at h; cases h
    | singlePropComb p2 op2 cs =>
      have := noSPCList_mem hl (show QueryNode.singlePropComb p2 op2 cs ∈ _ by simp)
      simp [noSPC] at this

theorem simplify_ok_eval (org : Org) (pm : List (String × PropEntry)) (db : DB)
    (ct : Contact) :
    ∀ t, noSPC t = true → (QueryNode.as_query org pm t).isOk = true →
    ((QueryNode.as_query org pm (QueryNode.simplify t)).isOk = true ∧
     evalChild org pm db ct (QueryNode.simplify t) = evalChild org pm db ct t) := by
  intro t
  induction t using queryNodeRec
    (L := fun l => ∀ c ∈ l, noSPC c = true → (QueryNode.as_query org pm c).isOk = true →
      ((QueryNode.as_query org pm (QueryNode.simplify c)).isOk = true ∧
       evalChild org pm db ct (QueryNode.simplify c) = evalChild org pm db ct c)) with
  | condition p c v => intro _ hok; exact ⟨hok, rfl⟩
  | boolComb op cs ih =>
    intro hn hok
    simp only [noSPC] at hn
    obtain ⟨hne, hcs⟩ := comb_ok_inv org pm op cs hok
    have hmapok : ∀ x ∈ simplifyList cs, (QueryNode.as_query org pm x).isOk = true := by
      rw [simplifyList_eq_map]
      intro x hx
      rcases List.mem_map.mp hx with ⟨c, hc, rfl⟩
      exact (ih c hc (noSPCList_mem hn hc) (hcs c hc)).1
    have hne' : simplifyList cs ≠ [] := by
      rw [simplifyList_eq_map]
      intro hcontra
      exact hne (List.map_eq_nil_iff.mp hcontra)
    have hmapeval : (simplifyList cs).map (evalChild org pm db ct) =
        cs.map (evalChild org pm db ct) := by
      rw [simplifyList_eq_map, List.map_map]
      exact List.map_congr_left
        (fun c hc => (ih c hc (noSPCList_mem hn hc) (hcs c hc)).2)
    have horig := (comb_ok_eval org pm db ct op cs hne hcs).2
    simp only [QueryNode.simplify]
    cases hloop : simplifyLoop op [] (simplifyList cs) with
    | none =>
      obtain ⟨hok', heval'⟩ := comb_ok_eval org pm db ct op (simplifyList cs) hne' hmapok
      exact ⟨hok', by rw [heval', hmapeval, horig]⟩
    | some s =>
      obtain ⟨hsok, hse, hsne⟩ := simplifyLoop_ok_eval org pm db ct op
        (simplifyList cs) [] s (simplifyList_noSPC hn) hloop hmapok (by intro c hc; cases hc)
      have hsne' : s ≠ [] := hsne (Or.inr hne')
      obtain ⟨hok', heval'⟩ := comb_ok_eval org pm db ct op s hsne' hsok
      refine ⟨hok', ?_⟩
      rw [heval', hse, horig, hmapeval]
      simp only [List.map_nil]
      exact evalOf_nil_bop op _
  | singlePropComb p op cs ih => intro hn; simp [noSPC] at hn
  | nil =>
    rename_i c hc hn hok
    cases hc
  | cons c cs ihc ihcs =>
    rename_i d hd hn hok
    cases hd with
    | head => exact ihc hn hok
    | tail _ hd => exact ihcs d hd hn hok

/-! ## Claim C1: structure of the `children_by_prop` grouping -/

/-- The members of an ordered group dict, spliced back in group order. -/
def flattenG : List (Option String × List QueryNode) → List QueryNode
  | [] => []
  | g :: gs => g.2 ++ flattenG gs

theorem propKey_some {y : QueryNode} {p : String} (h : propKey y = some p) :
    ∃ cp v, y = .condition p cp v := by
  cases y with
  | condition p2 cp v =>
    simp only [propKey, Option.some.injEq] at h
    exact ⟨cp, v, by rw [h]⟩
  | boolComb op cs => cases h
  | singlePropComb p2 op cs => cases h

theorem groupInsert_mem (k : Option String) (c x : QueryNode) :
    ∀ m, x ∈ flattenG (groupInsert k c m) ↔ x = c ∨ x ∈ flattenG m := by
  intro m
  induction m with
  | nil => simp [groupInsert, flattenG]
  | cons g gs ih =>
    simp only [groupInsert]
    by_cases hk : g.1 = k
    · rw [if_pos hk]
      simp only [flattenG, List.mem_append, List.mem_singleton, ih]
      constructor
      · rintro ((hx | hx) | hx)
        · exact Or.inr (Or.inl hx)
        · exact Or.inl hx
        · exact Or.inr (Or.inr hx)
      · rintro (hx | hx | hx)
        · exact Or.inl (Or.inr hx)
        · exact Or.inl (Or.inl hx)
        · exact Or.inr hx
    · rw [if_neg hk]
      simp only [flattenG, List.mem_append, ih]
      tauto

theorem children_by_prop_foldl_mem (x : QueryNode) :
    ∀ (cs : List QueryNode) (m : List (Option String × List QueryNode)),
    (x ∈ flattenG (cs.foldl (fun m c => groupInsert (propKey c) c m) m) ↔
     x ∈ cs ∨ x ∈ flattenG m) := by
  intro cs
  induction cs with
  | nil => simp
  | cons c rest ih =>
    intro m
    simp only [List.foldl, ih, groupInsert_mem, List.mem_cons]
    tauto

theorem children_by_prop_mem (x : QueryNode) (cs : List QueryNode) :
    x ∈ flattenG (children_by_prop cs) ↔ x ∈ cs := by
  rw [children_by_prop, children_by_prop_foldl_mem]
  simp [flattenG]

theorem groupInsert_inv (k : Option String) (c : QueryNode) (hc : propKey c = k) :
    ∀ m, (∀ g ∈ m, g.2 ≠ [] ∧ ∀ y ∈ g.2, propKey y = g.1) →
    ∀ g ∈ groupInsert k c m, g.2 ≠ [] ∧ ∀ y ∈ g.2, propKey y = g.1 := by
  intro m
  induction m with
  | nil =>
    intro _ g hg
    simp only [groupInsert, List.mem_singleton] at hg
    subst hg
    refine ⟨by simp, ?_⟩
    intro y hy
    rw [List.mem_singleton.mp hy, hc]
  | cons g0 gs ih =>
    intro hm g hg
    simp only [groupInsert] at hg
    by_cases hk : g0.1 = k
    · rw [if_pos hk] at hg
      cases hg with
      | head =>
        refine ⟨by simp [(hm g0 (by simp)).1], ?_⟩
        intro y hy
        rcases List.mem_append.mp hy with hy | hy
        · exact (hm g0 (by simp)).2 y hy
        · rw [List.mem_singleton.mp hy, hc, ← hk]
      | tail _ hg => exact hm g (List.mem_cons_of_mem _ hg)
    · rw [if_neg hk] at hg
      cases hg with
      | head => exact hm g0 (by simp)
      | tail _ hg => exact ih (fun g2 hg2 => hm g2 (by simp [hg2])) g hg

theorem children_by_prop_inv (cs : List QueryNode) :
    ∀ g ∈ children_by_prop cs, g.2 ≠ [] ∧ ∀ y ∈ g.2, propKey y = g.1 := by
  rw [children_by_prop]
  have : ∀ (l : List QueryNode) (m : List (Option String × List QueryNode)),
      (∀ g ∈ m, g.2 ≠ [] ∧ ∀ y ∈ g.2, propKey y = g.1) →
      ∀ g ∈ l.foldl (fun m c => groupInsert (propKey c) c m) m,
        g.2 ≠ [] ∧ ∀ y ∈ g.2, propKey y = g.1 := by
    intro l
    induction l with
    | nil => intro m hm; exact hm
    | cons c rest ih =>
      intro m hm
      exact ih _ (groupInsert_inv (propKey c) c rfl m hm)
  exact this cs [] (by intro g hg; cases hg)

theorem regroup_ne (op : BOp) :
    ∀ gs, gs ≠ [] → (∀ g ∈ gs, g.2 ≠ []) → regroup op gs ≠ [] := by
  intro gs
  induction gs with
  | nil => intro h _; exact absurd rfl h
  | cons g rest ih =>
    intro _ hne
    match g with
    | (some p, gg) =>
      simp only [regroup]
      by_cases hlen : gg.length > 1
      · rw [if_pos hlen]; simp
      · rw [if_neg hlen]
        intro hcontra
        rcases List.append_eq_nil.mp hcontra with ⟨h1, _⟩
        exact hne (some p, gg) (by simp) h1
    | (none, gg) =>
      simp only [regroup]
      intro hcontra
      rcases List.append_eq_nil.mp hcontra with ⟨h1, _⟩
      exact hne (none, gg) (by simp) h1

theorem regroup_mem (op : BOp) :
    ∀ gs x, x ∈ regroup op gs →
    (∃ g ∈ gs, x ∈ g.2) ∨
    (∃ p g, (some p, g) ∈ gs ∧ g.length > 1 ∧ x = QueryNode.singlePropComb p op g) := by
  intro gs
  induction gs with
  | nil => intro x hx; cases hx
  | cons g rest ih =>
    intro x hx
    match g with
    | (some p, gg) =>
      simp only [regroup] at hx
      by_cases hlen : gg.length > 1
      · rw [if_pos hlen] at hx
        cases hx with
        | head => exact Or.inr ⟨p, gg, by simp, hlen, rfl⟩
        | tail _ hx =>
          rcases ih x hx with ⟨g2, hg2, hxg⟩ | ⟨p2, g2, hg2, hl2, hx2⟩
          · exact Or.inl ⟨g2, by simp [hg2], hxg⟩
          · exact Or.inr ⟨p2, g2, by simp [hg2], hl2, hx2⟩
      · rw [if_neg hlen] at hx
        rcases List.mem_append.mp hx with hx | hx
        · exact Or.inl ⟨(some p, gg), by simp, hx⟩
        · rcases ih x hx with ⟨g2, hg2, hxg⟩ | ⟨p2, g2, hg2, hl2, hx2⟩
          · exact Or.inl ⟨g2, by simp [hg2], hxg⟩
          · exact Or.inr ⟨p2, g2, by simp [hg2], hl2, hx2⟩
    | (none, gg) =>
      simp only [regroup] at hx
      rcases List.mem_append.mp hx with hx | hx
      · exact Or.inl ⟨(none, gg), by simp, hx⟩
      · rcases ih x hx with ⟨g2, hg2, hxg⟩ | ⟨p2, g2, hg2, hl2, hx2⟩
        · exact Or.inl ⟨g2, by simp [hg2], hxg⟩
        · exact Or.inr ⟨p2, g2, by simp [hg2], hl2, hx2⟩

theorem spcSafeList_mem {l : List QueryNode} (h : spcSafeList l = true) {x : QueryNode}
    (hx : x ∈ l) : spcSafe x = true := by
  induction l with
  | nil => cases hx
  | cons c cs ih =>
    simp only [spcSafeList, Bool.and_eq_true] at h
    cases hx with
    | head => exact h.1
    | tail _ hx => exact ih h.2 hx

theorem spcSafeList_append (a b : List QueryNode) :
    spcSafeList (a ++ b) = (spcSafeList a && spcSafeList b) := by
  induction a with
  | nil => simp [spcSafeList]
  | cons c cs ih => simp [spcSafeList, ih, Bool.and_assoc]

/-- Every grouped child is safe once the regrouped list is: it is either kept
inline (so safe directly) or wrapped — and then it is a bare condition. -/
theorem spcSafe_of_flatten (op : BOp) :
    ∀ gs, (∀ g ∈ gs, ∀ y ∈ g.2, propKey y = g.1) →
    spcSafeList (regroup op gs) = true →
    ∀ x ∈ flattenG gs, spcSafe x = true := by
  intro gs
  induction gs with
  | nil => intro _ _ x hx; cases hx
  | cons g rest ih =>
    intro hkeys hs x hx
    rcases List.mem_append.mp hx with hx | hx
    · match g with
      | (some p, gg) =>
        obtain ⟨cp, v, rfl⟩ := propKey_some (hkeys (some p, gg) (by simp) x hx)
        rfl
      | (none, gg) =>
        simp only [regroup] at hs
        rw [spcSafeList_append] at hs
        exact spcSafeList_mem (Bool.and_elim_left hs) hx
    · refine ih (fun g2 hg2 => hkeys g2 (by simp [hg2])) ?_ x hx
      match g with
      | (some p, gg) =>
        simp only [regroup] at hs
        by_cases hlen : gg.length > 1
        · rw [if_pos hlen] at hs
          simp only [spcSafeList, Bool.and_eq_true] at hs
          exact hs.2
        · rw [if_neg hlen, spcSafeList_append] at hs
          exact Bool.and_elim_right hs
      | (none, gg) =>
        simp only [regroup, spcSafeList_append] at hs
        exact Bool.and_elim_right hs

/-! ## Claim C1: semantics of `SinglePropCombination.as_query` on a field -/

/-- Every parameter set a field builder emits starts with the shared
`contact_field` key, and nothing else in it is a `contact_field` key. -/
theorem bvqp_shape {f : ContactField} {cp v : String} {ps : List VLookup}
    (h : build_value_query_params f cp v = .ok ps) :
    ps = VLookup.contact_field f :: delContactField ps := by
  unfold build_value_query_params build_text_field_params build_decimal_field_params
    build_datetime_field_params build_location_field_params at h
  split at h <;> (repeat' split at h) <;> cases h <;> rfl

/-- A safe field condition that compiles does so through
`build_value_query_params`, with no empty-string special case. -/
theorem cond_field_ok {org : Org} {pm : List (String × PropEntry)} {p cp v : String}
    {f : ContactField} (hp : p ≠ IMPLICIT_PROP) (hpm : pmLookup pm p = some (.field f))
    (hsafe : safeSPCChild (.condition p cp v) = true)
    (hok : (QueryNode.as_query org pm (.condition p cp v)).isOk = true) :
    ∃ ps, build_value_query_params f cp v = .ok ps ∧
      QueryNode.as_query org pm (.condition p cp v) = .ok (.value_in (.filt ps)) := by
  simp only [safeSPCChild, Bool.not_eq_true', Bool.and_eq_false_iff,
    Bool.or_eq_false_iff, beq_eq_false_iff_ne] at hsafe
  have hcond : ¬(((strLower cp = "=" || strLower cp = "is") && v = "") = true) := by
    simp only [Bool.and_eq_true, Bool.or_eq_true, decide_eq_true_eq]
    rcases hsafe with ⟨h1, h2⟩ | h3
    · rintro ⟨h | h, _⟩
      · exact h1 h
      · exact h2 h
    · rintro ⟨_, h⟩
      exact h3 h
  have hq : QueryNode.as_query org pm (.condition p cp v) =
      (build_value_query_params f cp v).map (fun ps => Q.value_in (VQ.filt ps)) := by
    show condition_as_query org pm p cp v = _
    rw [condition_as_query, if_neg hp, hpm]
    exact if_neg hcond
  rw [hq] at hok ⊢
  cases hb : build_value_query_params f cp v with
  | error e => rw [hb] at hok; cases hok
  | ok ps => exact ⟨ps, rfl, rfl⟩

/-- The per-child parameter loop of `SinglePropCombination.as_query`. -/
theorem mapChildParams_ok (f : ContactField) :
    ∀ g : List QueryNode, (∀ c ∈ g, (childParams f c).isOk = true) →
    mapChildParams f g =
      .ok (g.map (fun c => VQ.filt (delContactField (getOkPs (childParams f c))))) := by
  intro g
  induction g with
  | nil => intro _; rfl
  | cons c cs ih =>
    intro h
    obtain ⟨ps, hps⟩ := except_isOk_exists.mp (h c (by simp))
    simp only [mapChildParams, hps, ih (fun x hx => h x (by simp [hx])), List.map_cons]
    rfl

theorem any_congr2 {α : Type} {l : List α} {f g : α → Bool} (h : ∀ x ∈ l, f x = g x) :
    l.any f = l.any g := by
  induction l with
  | nil => rfl
  | cons x xs ih =>
    simp only [List.any_cons, h x (by simp), ih (fun y hy => h y (by simp [hy]))]

theorem any_or_split {α : Type} (l : List α) (f g : α → Bool) :
    l.any (fun x => f x || g x) = (l.any f || l.any g) := by
  apply boolExt
  simp only [List.any_eq_true, Bool.or_eq_true]
  constructor
  · rintro ⟨x, hx, h | h⟩
    · exact Or.inl ⟨x, hx, h⟩
    · exact Or.inr ⟨x, hx, h⟩
  · rintro (⟨x, hx, h⟩ | ⟨x, hx, h⟩)
    · exact ⟨x, hx, Or.inl h⟩
    · exact ⟨x, hx, Or.inr h⟩

/-- When at most one row satisfies `base`, a conjunction of row predicates can
be checked one row-scan at a time. -/
theorem any_pair_unique {α : Type} (l : List α) (base x y : α → Bool)
    (huniq : ∀ r1 ∈ l, ∀ r2 ∈ l, base r1 = true → base r2 = true → r1 = r2) :
    l.any (fun r => base r && (x r && y r)) =
      (l.any (fun r => base r && x r) && l.any (fun r => base r && y r)) := by
  apply boolExt
  simp only [List.any_eq_true, Bool.and_eq_true]
  constructor
  · rintro ⟨r, hr, hb, hx, hy⟩
    exact ⟨⟨r, hr, hb, hx⟩, ⟨r, hr, hb, hy⟩⟩
  · rintro ⟨⟨r1, hr1, hb1, hx⟩, ⟨r2, hr2, hb2, hy⟩⟩
    obtain rfl := huniq r1 hr1 r2 hr2 hb1 hb2
    exact ⟨r1, hr1, hb1, hx, hy⟩

/-- Scanning the field-scoped rows once for an operator applied across the
per-child predicates equals applying the operator across one scan per child
(for AND this needs at most one row to satisfy `base`). -/
theorem grouped_eval {β : Type} (vals : List ValueRow) (base : ValueRow → Bool)
    (op : BOp) (g : List β) (F : β → ValueRow → Bool) (hne : g ≠ [])
    (huniq : ∀ r1 ∈ vals, ∀ r2 ∈ vals, base r1 = true → base r2 = true → r1 = r2) :
    vals.any (fun r => base r && evalOf op (g.map (fun c => F c r))) =
      evalOf op (g.map (fun c => vals.any (fun r => base r && F c r))) := by
  cases op with
  | or =>
    clear hne huniq
    induction g with
    | nil => simp [evalOf]
    | cons A L ih =>
      simp only [evalOf, List.map_cons, List.any_cons, id] at ih ⊢
      have hpt : ∀ r ∈ vals,
          (base r && (F A r || (L.map (fun c => F c r)).any id)) =
          ((base r && F A r) || (base r && (L.map (fun c => F c r)).any id)) :=
        fun r _ => by rw [Bool.and_or_distrib_left]
      rw [any_congr2 hpt, any_or_split, ih]
  | and =>
    obtain ⟨c1, g', rfl⟩ : ∃ c1 g', g = c1 :: g' := by
      cases g with
      | nil => exact absurd rfl hne
      | cons a b => exact ⟨a, b, rfl⟩
    clear hne
    induction g' generalizing c1 with
    | nil => simp [evalOf]
    | cons c2 g2 ih =>
      simp only [evalOf, List.map_cons, List.all_cons, id] at ih ⊢
      rw [any_pair_unique vals base (F c1)
          (fun r => F c2 r && (g2.map (fun c => F c r)).all id) huniq, ih c2]

/-- Peeling one keyword off a `Q(**params)` conjunction. -/
theorem filt_eval_cons (db : DB) (r : ValueRow) (x : VLookup) (ls : List VLookup) :
    VQ.eval db r (.filt (x :: ls)) = (VLookup.eval db r x && VQ.eval db r (.filt ls)) := by
  simp [VQ.eval, List.all_cons]

/-- `SinglePropCombination.as_query` on a safe, compiling, single-property
child group: it compiles, and under one-value-per-field stores it selects the
same contacts as combining the children's standalone compilations. -/
theorem spc_ok_eval (org : Org) (pm : List (String × PropEntry)) (db : DB) (ct : Contact)
    (hdb : OneValuePerField db) (p : String) (op : BOp) (g : List QueryNode)
    (hne : g ≠ [])
    (hkeys : ∀ c ∈ g, propKey c = some p)
    (hsafe : spcSafe (.singlePropComb p op g) = true)
    (hok : ∀ c ∈ g, (QueryNode.as_query org pm c).isOk = true) :
    ((QueryNode.as_query org pm (.singlePropComb p op g)).isOk = true) ∧
    evalChild org pm db ct (.singlePropComb p op g) =
      evalOf op (g.map (evalChild org pm db ct)) := by
  have hps : p ≠ IMPLICIT_PROP ∧ ∀ c ∈ g, safeSPCChild c = true := by
    simp only [spcSafe, Bool.and_eq_true, Bool.not_eq_true', beq_eq_false_iff_ne] at hsafe
    exact ⟨hsafe.1, List.all_eq_true.mp hsafe.2⟩
  obtain ⟨hpimp, hsafeC⟩ := hps
  obtain ⟨c0, hc0⟩ := List.exists_mem_of_ne_nil g hne
  obtain ⟨cp0, v0, hc0eq⟩ := propKey_some (hkeys c0 hc0)
  cases hpm : pmLookup pm p with
  | none =>
    exfalso
    have hbad : QueryNode.as_query org pm c0 = .error ("KeyError: " ++ p) := by
      rw [hc0eq]
      show condition_as_query org pm p cp0 v0 = _
      rw [condition_as_query, if_neg hpimp, hpm]
    have hbad2 := hok c0 hc0
    rw [hbad] at hbad2
    cases hbad2
  | some e =>
    cases e
    · -- a searchable attribute: the inherited combination fallback
      obtain ⟨q, hq, he⟩ := reduceList_ok_eval org pm db ct op g hne hok
      have hqe : QueryNode.as_query org pm (.singlePropComb p op g) = .ok q := by
        simp only [QueryNode.as_query, hpm]
        exact hq
      refine ⟨by rw [hqe]; rfl, ?_⟩
      rw [evalChild, hqe]
      exact he
    · -- a searchable scheme: the inherited combination fallback
      obtain ⟨q, hq, he⟩ := reduceList_ok_eval org pm db ct op g hne hok
      have hqe : QueryNode.as_query org pm (.singlePropComb p op g) = .ok q := by
        simp only [QueryNode.as_query, hpm]
        exact hq
      refine ⟨by rw [hqe]; rfl, ?_⟩
      rw [evalChild, hqe]
      exact he
    · -- a custom field: the single `Value` sub-query
      rename_i f
      have hchild : ∀ c ∈ g, (childParams f c = .ok (getOkPs (childParams f c))) ∧
          (QueryNode.as_query org pm c =
            .ok (.value_in (.filt (getOkPs (childParams f c))))) ∧
          (getOkPs (childParams f c) =
            VLookup.contact_field f :: delContactField (getOkPs (childParams f c))) := by
        intro c hc
        obtain ⟨cp, v, rfl⟩ := propKey_some (hkeys c hc)
        obtain ⟨ps, hb, hqc⟩ := cond_field_ok hpimp hpm (hsafeC _ hc) (hok _ hc)
        have hcp : childParams f (QueryNode.condition p cp v) = .ok ps := hb
        rw [hcp]
        exact ⟨rfl, hqc, bvqp_shape hb⟩
      have hcpok : ∀ c ∈ g, (childParams f c).isOk = true := by
        intro c hc
        rw [(hchild c hc).1]
        rfl
      have hmcp := mapChildParams_ok f g hcpok
      obtain ⟨c1, g', rfl⟩ : ∃ c1 g2, g = c1 :: g2 := by
        cases g with
        | nil => exact absurd rfl hne
        | cons a b => exact ⟨a, b, rfl⟩
      have hqe : QueryNode.as_query org pm (.singlePropComb p op (c1 :: g')) =
          .ok (.value_in (.and (.filt [.contact_field f])
            ((g'.map (fun c => VQ.filt (delContactField (getOkPs (childParams f c))))).foldl
              (applyVOp op)
              (VQ.filt (delContactField (getOkPs (childParams f c1))))))) := by
        simp only [QueryNode.as_query, hpm, hmcp, List.map_cons, ebind_ok, reduceVQ]
      refine ⟨by rw [hqe]; rfl, ?_⟩
      rw [evalChild, hqe]
      show (Q.value_in _).eval db ct = _
      simp only [Q.eval]
      have hbase : ∀ r1 ∈ db.values, ∀ r2 ∈ db.values,
          ((r1.contact_id == ct.id) && (r1.contact_field == f)) = true →
          ((r2.contact_id == ct.id) && (r2.contact_field == f)) = true → r1 = r2 := by
        intro r1 h1 r2 h2 hb1 hb2
        simp only [Bool.and_eq_true, beq_iff_eq] at hb1 hb2
        exact hdb r1 h1 r2 h2 (by rw [hb1.1, hb2.1]) (by rw [hb1.2, hb2.2])
      have hLHS : ∀ r ∈ db.values,
          ((r.contact_id == ct.id) && VQ.eval db r (.and (.filt [.contact_field f])
            ((g'.map (fun c => VQ.filt (delContactField (getOkPs (childParams f c))))).foldl
              (applyVOp op)
              (VQ.filt (delContactField (getOkPs (childParams f c1))))))) =
          (((r.contact_id == ct.id) && (r.contact_field == f)) &&
            evalOf op ((c1 :: g').map (fun c =>
              VQ.eval db r (VQ.filt (delContactField (getOkPs (childParams f c))))))) := by
        intro r _
        have hfold := foldl_applyVOp_eval db r op
          (g'.map (fun c => VQ.filt (delContactField (getOkPs (childParams f c)))))
          (VQ.filt (delContactField (getOkPs (childParams f c1))))
        show ((r.contact_id == ct.id) &&
          (VQ.eval db r (.filt [.contact_field f]) && _)) = _
        rw [hfold]
        simp only [List.map_cons, List.map_map]
        show ((r.contact_id == ct.id) &&
          (((r.contact_field == f) && true) && _)) = _
        rw [Bool.and_true, ← Bool.and_assoc]
        rfl
      rw [any_congr2 hLHS]
      have hRHS : ∀ c ∈ (c1 :: g'), evalChild org pm db ct c =
          db.values.any (fun r => ((r.contact_id == ct.id) && (r.contact_field == f)) &&
            VQ.eval db r (VQ.filt (delContactField (getOkPs (childParams f c))))) := by
        intro c hc
        obtain ⟨h1, h2, h3⟩ := hchild c hc
        rw [evalChild, h2]
        show (Q.value_in _).eval db ct = _
        simp only [Q.eval]
        apply any_congr2
        intro r _
        conv_lhs => rw [h3, filt_eval_cons]
        show ((r.contact_id == ct.id) && ((r.contact_field == f) && _)) = _
        rw [← Bool.and_assoc]
      rw [List.map_congr_left hRHS]
      exact grouped_eval db.values
        (fun r => (r.contact_id == ct.id) && (r.contact_field == f)) op (c1 :: g')
        (fun c r => VQ.eval db r (VQ.filt (delContactField (getOkPs (childParams f c)))))
        (by simp) hbase

/-! ## Claim C1, stage B: `split_by_prop` preserves compilation and semantics -/

theorem splitList_eq_map (l : List QueryNode) :
    splitList l = l.map QueryNode.split_by_prop := by
  induction l with
  | nil => rfl
  | cons c cs ih => simp [splitList, ih]

theorem evalOf_mem_congr {l1 l2 : List Bool} (h : ∀ b, b ∈ l1 ↔ b ∈ l2) (op : BOp) :
    evalOf op l1 = evalOf op l2 := by
  cases op
  · apply boolExt
    simp only [evalOf, List.all_eq_true, id]
    constructor <;> intro hh x hx
    · exact hh x ((h x).mpr hx)
    · exact hh x ((h x).mp hx)
  · apply boolExt
    simp only [evalOf, List.any_eq_true, id]
    constructor <;> rintro ⟨x, hx, hxx⟩
    · exact ⟨x, (h x).mp hx, hxx⟩
    · exact ⟨x, (h x).mpr hx, hxx⟩

/-- Replacing each multi-member concrete-property group by its
`SinglePropCombination` preserves compilation and the operator-combined
value. -/
theorem regroup_ok_eval (org : Org) (pm : List (String × PropEntry)) (db : DB)
    (ct : Contact) (hdb : OneValuePerField db) (op : BOp) :
    ∀ gs, (∀ g ∈ gs, g.2 ≠ [] ∧ ∀ y ∈ g.2, propKey y = g.1) →
    (∀ x ∈ flattenG gs, (QueryNode.as_query org pm x).isOk = true) →
    spcSafeList (regroup op gs) = true →
    (∀ x ∈ regroup op gs, (QueryNode.as_query org pm x).isOk = true) ∧
    evalOf op ((regroup op gs).map (evalChild org pm db ct)) =
      evalOf op ((flattenG gs).map (evalChild org pm db ct)) := by
  intro gs
  induction gs with
  | nil =>
    intro _ _ _
    exact ⟨fun x hx => absurd hx (by simp [regroup]), rfl⟩
  | cons g rest ih =>
    intro hinv hok hs
    have hinv' : ∀ g2 ∈ rest, g2.2 ≠ [] ∧ ∀ y ∈ g2.2, propKey y = g2.1 :=
      fun g2 hg2 => hinv g2 (List.mem_cons_of_mem _ hg2)
    have hokl : ∀ x ∈ g.2, (QueryNode.as_query org pm x).isOk = true :=
      fun x hx => hok x (by show x ∈ g.2 ++ flattenG rest; exact List.mem_append_left _ hx)
    have hokr : ∀ x ∈ flattenG rest, (QueryNode.as_query org pm x).isOk = true :=
      fun x hx => hok x (by show x ∈ g.2 ++ flattenG rest; exact List.mem_append_right _ hx)
    match g with
    | (some p, gg) =>
      simp only [regroup] at hs ⊢
      by_cases hlen : gg.length > 1
      · rw [if_pos hlen] at hs ⊢
        simp only [spcSafeList, Bool.and_eq_true] at hs
        have hggne : gg ≠ [] := (hinv (some p, gg) (by simp)).1
        have hggkeys : ∀ y ∈ gg, propKey y = some p := (hinv (some p, gg) (by simp)).2
        obtain ⟨hspcok, hspceval⟩ :=
          spc_ok_eval org pm db ct hdb p op gg hggne hggkeys hs.1 hokl
        obtain ⟨ihok, iheval⟩ := ih hinv' hokr hs.2
        constructor
        · intro x hx
          cases hx with
          | head => exact hspcok
          | tail _ hx => exact ihok x hx
        · show evalOf op (_ :: _) = evalOf op ((gg ++ flattenG rest).map _)
          rw [List.map_append, evalOf_append, evalOf_cons, hspceval, iheval]
      · rw [if_neg hlen] at hs ⊢
        rw [spcSafeList_append] at hs
        obtain ⟨ihok, iheval⟩ := ih hinv' hokr (Bool.and_elim_right hs)
        constructor
        · intro x hx
          rcases List.mem_append.mp hx with hx | hx
          · exact hokl x hx
          · exact ihok x hx
        · show evalOf op ((gg ++ regroup op rest).map _) =
            evalOf op ((gg ++ flattenG rest).map _)
          rw [List.map_append, List.map_append, evalOf_append, evalOf_append, iheval]
    | (none, gg) =>
      simp only [regroup] at hs ⊢
      rw [spcSafeList_append] at hs
      obtain ⟨ihok, iheval⟩ := ih hinv' hokr (Bool.and_elim_right hs)
      constructor
      · intro x hx
        rcases List.mem_append.mp hx with hx | hx
        · exact hokl x hx
        · exact ihok x hx
      · show evalOf op ((gg ++ regroup op rest).map _) =
          evalOf op ((gg ++ flattenG rest).map _)
        rw [List.map_append, List.map_append, evalOf_append, evalOf_append, iheval]

theorem split_ok_eval (org : Org) (pm : List (String × PropEntry)) (db : DB)
    (ct : Contact) (hdb : OneValuePerField db) :
    ∀ t, noSPC t = true → spcSafe (QueryNode.split_by_prop t) = true →
    (QueryNode.as_query org pm t).isOk = true →
    ((QueryNode.as_query org pm (QueryNode.split_by_prop t)).isOk = true ∧
     evalChild org pm db ct (QueryNode.split_by_prop t) = evalChild org pm db ct t) := by
  intro t
  induction t using queryNodeRec
    (L := fun l => ∀ c ∈ l, noSPC c = true →
      spcSafe (QueryNode.split_by_prop c) = true →
      (QueryNode.as_query org pm c).isOk = true →
      ((QueryNode.as_query org pm (QueryNode.split_by_prop c)).isOk = true ∧
       evalChild org pm db ct (QueryNode.split_by_prop c) = evalChild org pm db ct c)) with
  | condition p c v => intro _ _ hok; exact ⟨hok, rfl⟩
  | boolComb op cs ih =>
    intro hn hs hok
    simp only [noSPC] at hn
    obtain ⟨hne, hcs⟩ := comb_ok_inv org pm op cs hok
    have hgs := children_by_prop_inv (splitList cs)
    have hsplit : QueryNode.split_by_prop (.boolComb op cs) =
        (match regroup op (children_by_prop (splitList cs)) with
         | [c] => c
         | _ => .boolComb op (regroup op (children_by_prop (splitList cs)))) := by
      simp only [QueryNode.split_by_prop]
    rw [hsplit] at hs ⊢
    -- safety of the regrouped list, in all result shapes
    have hsnc : spcSafeList (regroup op (children_by_prop (splitList cs))) = true := by
      cases hnc : regroup op (children_by_prop (splitList cs)) with
      | nil => rfl
      | cons c0 nc' =>
        rw [hnc] at hs
        cases nc' with
        | nil => simp [spcSafeList, hs]
        | cons c1 rest => exact hs
    -- every split child is safe ...
    have hsafeChildren : ∀ x ∈ splitList cs, spcSafe x = true := by
      intro x hx
      exact spcSafe_of_flatten op (children_by_prop (splitList cs))
        (fun g hg => (hgs g hg).2) hsnc x ((children_by_prop_mem x (splitList cs)).mpr hx)
    -- ... so the induction hypothesis applies to every child
    have hchild : ∀ c ∈ cs,
        (QueryNode.as_query org pm (QueryNode.split_by_prop c)).isOk = true ∧
        evalChild org pm db ct (QueryNode.split_by_prop c) = evalChild org pm db ct c := by
      intro c hc
      refine ih c hc (noSPCList_mem hn hc) ?_ (hcs c hc)
      exact hsafeChildren _ (by rw [splitList_eq_map]; exact List.mem_map_of_mem _ hc)
    have hokflat : ∀ x ∈ flattenG (children_by_prop (splitList cs)),
        (QueryNode.as_query org pm x).isOk = true := by
      intro x hx
      rw [children_by_prop_mem, splitList_eq_map] at hx
      rcases List.mem_map.mp hx with ⟨c, hc, rfl⟩
      exact (hchild c hc).1
    obtain ⟨hncok, hnceval⟩ :=
      regroup_ok_eval org pm db ct hdb op (children_by_prop (splitList cs)) hgs hokflat hsnc
    -- the flattened groups and the split children carry the same values
    have hflat_eval :
        evalOf op ((flattenG (children_by_prop (splitList cs))).map (evalChild org pm db ct)) =
        evalOf op ((splitList cs).map (evalChild org pm db ct)) := by
      apply evalOf_mem_congr
      intro b
      simp only [List.mem_map]
      constructor
      · rintro ⟨x, hx, rfl⟩
        exact ⟨x, (children_by_prop_mem x (splitList cs)).mp hx, rfl⟩
      · rintro ⟨x, hx, rfl⟩
        exact ⟨x, (children_by_prop_mem x (splitList cs)).mpr hx, rfl⟩
    have hsplit_eval :
        (splitList cs).map (evalChild org pm db ct) = cs.map (evalChild org pm db ct) := by
      rw [splitList_eq_map, List.map_map]
      exact List.map_congr_left (fun c hc => (hchild c hc).2)
    have horig := (comb_ok_eval org pm db ct op cs hne hcs).2
    have hnc_ne : regroup op (children_by_prop (splitList cs)) ≠ [] := by
      apply regroup_ne op _ _ (fun g hg => (hgs g hg).1)
      intro hempty
      match cs, hne with
      | c :: cs2, _ =>
        have : QueryNode.split_by_prop c ∈ flattenG (children_by_prop (splitList (c :: cs2))) := by
          rw [children_by_prop_mem, splitList_eq_map]
          exact List.mem_map_of_mem _ (by simp)
        rw [hempty] at this
        simp [flattenG] at this
    cases hnc : regroup op (children_by_prop (splitList cs)) with
    | nil => exact absurd hnc hnc_ne
    | cons c0 nc' =>
      rw [hnc] at hncok hnceval
      cases nc' with
      | nil =>
        refine ⟨hncok c0 (by simp), ?_⟩
        have : evalChild org pm db ct c0 = evalOf op [evalChild org pm db ct c0] :=
          (evalOf_singleton op _).symm
        rw [horig, this, ← hsplit_eval, ← hflat_eval, ← hnceval]
        rfl
      | cons c1 rest =>
        obtain ⟨hok2, heval2⟩ :=
          comb_ok_eval org pm db ct op (c0 :: c1 :: rest) (by simp) hncok
        refine ⟨hok2, ?_⟩
        rw [heval2, horig, ← hsplit_eval, ← hflat_eval, hnceval]
  | singlePropComb p op cs ih =>
    intro hn
    simp [noSPC] at hn
  | nil =>
    rename_i c hc hn hs hok
    cases hc
  | cons c cs ihc ihcs =>
    rename_i d hd hn hs hok
    cases hd with
    | head => exact ihc hn hs hok
    | tail _ hd => exact ihcs d hd hn hs hok

/-! ## Claim C1: the optimizer preserves the referenced property names -/

theorem getPropNamesList_append (a b : List QueryNode) :
    getPropNamesList (a ++ b) = getPropNamesList a ++ getPropNamesList b := by
  induction a with
  | nil => rfl
  | cons c cs ih => simp [getPropNamesList, ih]

theorem simplifyLoop_names (op : BOp) :
    ∀ (l acc s : List QueryNode), simplifyLoop op acc l = some s →
    getPropNamesList s = getPropNamesList acc ++ getPropNamesList l := by
  intro l
  induction l with
  | nil =>
    intro acc s h
    simp only [simplifyLoop, Option.some.injEq] at h
    subst h
    simp [getPropNamesList]
  | cons c rest ih =>
    intro acc s h
    cases c with
    | condition p cp v =>
      rw [ih _ s h, getPropNamesList_append]
      simp [getPropNamesList, QueryNode.get_prop_names, List.append_assoc]
    | boolComb op2 cs =>
      simp only [simplifyLoop] at h
      by_cases hop : op2 = op
      · rw [if_pos hop] at h
        rw [ih _ s h, getPropNamesList_append]
        simp [getPropNamesList, QueryNode.get_prop_names, List.append_assoc]
      · rw [if_neg hop] at h; cases h
    | singlePropComb p2 op2 cs =>
      simp only [simplifyLoop] at h
      by_cases hop : op2 = op
      · rw [if_pos hop] at h
        rw [ih _ s h, getPropNamesList_append]
        simp [getPropNamesList, QueryNode.get_prop_names, List.append_assoc]
      · rw [if_neg hop] at h; cases h

theorem get_prop_names_simplify :
    ∀ t, (QueryNode.simplify t).get_prop_names = t.get_prop_names := by
  intro t
  induction t using queryNodeRec
    (L := fun l => getPropNamesList (simplifyList l) = getPropNamesList l) with
  | condition p c v => rfl
  | boolComb op cs ih =>
    simp only [QueryNode.simplify]
    cases hloop : simplifyLoop op [] (simplifyList cs) with
    | none => simpa [QueryNode.get_prop_names] using ih
    | some s =>
      show getPropNamesList s = getPropNamesList cs
      rw [simplifyLoop_names op _ _ _ hloop, ih]
      rfl
  | singlePropComb p op cs ih =>
    simp only [QueryNode.simplify]
    cases hloop : simplifyLoop op [] (simplifyList cs) with
    | none => simpa [QueryNode.get_prop_names] using ih
    | some s =>
      show getPropNamesList s = getPropNamesList cs
      rw [simplifyLoop_names op _ _ _ hloop, ih]
      rfl
  | nil => rfl
  | cons c cs ihc ihcs =>
    simp only [simplifyList, getPropNamesList, ihc, ihcs]

theorem mem_namesList_iff (k : String) :
    ∀ l : List QueryNode,
    (k ∈ getPropNamesList l ↔ ∃ c ∈ l, k ∈ QueryNode.get_prop_names c) := by
  intro l
  induction l with
  | nil => simp [getPropNamesList]
  | cons c cs ih =>
    simp only [getPropNamesList, List.mem_append, ih, List.mem_cons]
    constructor
    · rintro (hk | ⟨d, hd, hk⟩)
      · exact ⟨c, Or.inl rfl, hk⟩
      · exact ⟨d, Or.inr hd, hk⟩
    · rintro ⟨d, rfl | hd, hk⟩
      · exact Or.inl hk
      · exact Or.inr ⟨d, hd, hk⟩

theorem regroup_names (op : BOp) :
    ∀ gs, getPropNamesList (regroup op gs) = getPropNamesList (flattenG gs) := by
  intro gs
  induction gs with
  | nil => rfl
  | cons g rest ih =>
    match g with
    | (some p, gg) =>
      show getPropNamesList _ = getPropNamesList (gg ++ flattenG rest)
      simp only [regroup]
      by_cases hlen : gg.length > 1
      · rw [if_pos hlen]
        show QueryNode.get_prop_names (.singlePropComb p op gg) ++
          getPropNamesList (regroup op rest) = _
        rw [getPropNamesList_append, ih]
        rfl
      · rw [if_neg hlen, getPropNamesList_append, getPropNamesList_append, ih]
    | (none, gg) =>
      show getPropNamesList _ = getPropNamesList (gg ++ flattenG rest)
      simp only [regroup]
      rw [getPropNamesList_append, getPropNamesList_append, ih]

theorem mem_names_split (k : String) :
    ∀ t, (k ∈ QueryNode.get_prop_names (QueryNode.split_by_prop t) ↔
          k ∈ QueryNode.get_prop_names t) := by
  intro t
  induction t using queryNodeRec
    (L := fun l => k ∈ getPropNamesList (splitList l) ↔ k ∈ getPropNamesList l) with
  | condition p c v => exact Iff.rfl
  | boolComb op cs ih =>
    have hsplit : QueryNode.split_by_prop (.boolComb op cs) =
        (match regroup op (children_by_prop (splitList cs)) with
         | [c] => c
         | _ => .boolComb op (regroup op (children_by_prop (splitList cs)))) := by
      simp only [QueryNode.split_by_prop]
    have hres : k ∈ QueryNode.get_prop_names
        (match regroup op (children_by_prop (splitList cs)) with
         | [c] => c
         | _ => .boolComb op (regroup op (children_by_prop (splitList cs)))) ↔
        k ∈ getPropNamesList (regroup op (children_by_prop (splitList cs))) := by
      cases hnc : regroup op (children_by_prop (splitList cs)) with
      | nil => exact Iff.rfl
      | cons c0 nc' =>
        cases nc' with
        | nil => simp [getPropNamesList]
        | cons c1 rest2 => exact Iff.rfl
    rw [hsplit, hres, regroup_names]
    have hflat : k ∈ getPropNamesList (flattenG (children_by_prop (splitList cs))) ↔
        k ∈ getPropNamesList (splitList cs) := by
      rw [mem_namesList_iff, mem_namesList_iff]
      constructor
      · rintro ⟨c, hc, hk⟩
        exact ⟨c, (children_by_prop_mem c (splitList cs)).mp hc, hk⟩
      · rintro ⟨c, hc, hk⟩
        exact ⟨c, (children_by_prop_mem c (splitList cs)).mpr hc, hk⟩
    rw [hflat]
    exact ih
  | singlePropComb p op cs ih =>
    have hsplit : QueryNode.split_by_prop (.singlePropComb p op cs) =
        (match regroup op (children_by_prop (splitList cs)) with
         | [c] => c
         | _ => .boolComb op (regroup op (children_by_prop (splitList cs)))) := by
      simp only [QueryNode.split_by_prop]
    have hres : k ∈ QueryNode.get_prop_names
        (match regroup op (children_by_prop (splitList cs)) with
         | [c] => c
         | _ => .boolComb op (regroup op (children_by_prop (splitList cs)))) ↔
        k ∈ getPropNamesList (regroup op (children_by_prop (splitList cs))) := by
      cases hnc : regroup op (children_by_prop (splitList cs)) with
      | nil => exact Iff.rfl
      | cons c0 nc' =>
        cases nc' with
        | nil => simp [getPropNamesList]
        | cons c1 rest2 => exact Iff.rfl
    rw [hsplit, hres, regroup_names]
    have hflat : k ∈ getPropNamesList (flattenG (children_by_prop (splitList cs))) ↔
        k ∈ getPropNamesList (splitList cs) := by
      rw [mem_namesList_iff, mem_namesList_iff]
      constructor
      · rintro ⟨c, hc, hk⟩
        exact ⟨c, (children_by_prop_mem c (splitList cs)).mp hc, hk⟩
      · rintro ⟨c, hc, hk⟩
        exact ⟨c, (children_by_prop_mem c (splitList cs)).mpr hc, hk⟩
    rw [hflat]
    exact ih
  | nil => exact Iff.rfl
  | cons c cs ihc ihcs =>
    simp only [splitList, getPropNamesList, List.mem_append, ihc, ihcs]

/-! ## Claim C1: the property map of the optimized query -/

theorem mem_dedupFirst (a : String) (l : List String) : a ∈ dedupFirst l ↔ a ∈ l := by
  have key : ∀ (l acc : List String),
      (a ∈ l.foldl (fun acc s => if acc.contains s then acc else acc ++ [s]) acc ↔
       a ∈ acc ∨ a ∈ l) := by
    intro l
    induction l with
    | nil => intro acc; simp
    | cons s rest ih =>
      intro acc
      simp only [List.foldl]
      by_cases hc : acc.contains s
      · rw [if_pos hc, ih]
        have hs : s ∈ acc := (scontains_iff acc s).mp hc
        constructor
        · rintro (h | h)
          · exact Or.inl h
          · exact Or.inr (List.mem_cons_of_mem _ h)
        · rintro (h | h)
          · exact Or.inl h
          · rcases List.mem_cons.mp h with rfl | h
            · exact Or.inl hs
            · exact Or.inr h
      · rw [if_neg hc, ih]
        simp only [List.mem_append, List.mem_singleton, List.mem_cons]
        tauto
  rw [dedupFirst, key]
  simp

theorem dedupFirst_nodup (l : List String) : (dedupFirst l).Nodup := by
  have key : ∀ (l acc : List String), acc.Nodup →
      (l.foldl (fun acc s => if acc.contains s then acc else acc ++ [s]) acc).Nodup := by
    intro l
    induction l with
    | nil => intro acc h; exact h
    | cons s rest ih =>
      intro acc h
      simp only [List.foldl]
      by_cases hc : acc.contains s
      · rw [if_pos hc]; exact ih _ h
      · rw [if_neg hc]
        refine ih _ ?_
        rw [List.nodup_append]
        refine ⟨h, List.nodup_singleton s, ?_⟩
        intro x hx hxs
        rw [List.mem_singleton.mp hxs] at hx
        exact hc ((scontains_iff acc s).mpr hx)
  exact key l [] List.nodup_nil

theorem mkeys_setKey (m : List (String × Option PropEntry)) (k : String) (v : PropEntry) :
    mkeys (setKey m k v) = mkeys m := by
  induction m with
  | nil => rfl
  | cons kv m ih =>
    rw [setKey_cons]
    by_cases hk : (kv.1 == k) = true
    · rw [if_pos hk]
      show kv.1 :: mkeys (setKey m k v) = kv.1 :: mkeys m
      rw [ih]
    · rw [if_neg hk]
      show kv.1 :: mkeys (setKey m k v) = kv.1 :: mkeys m
      rw [ih]

theorem mkeys_foldFields (fs : List ContactField) :
    ∀ m, mkeys (fs.foldl (fun m f => setKey m f.key (.field f)) m) = mkeys m := by
  induction fs with
  | nil => intro m; rfl
  | cons f fs ih =>
    intro m
    show mkeys (fs.foldl _ (setKey m f.key (.field f))) = mkeys m
    rw [ih, mkeys_setKey]

theorem mkeys_guardStep (c : Bool) (m : List (String × Option PropEntry)) (k : String)
    (v : PropEntry) : mkeys (if c then setKey m k v else m) = mkeys m := by
  cases c
  · rfl
  · show mkeys (setKey m k v) = mkeys m
    exact mkeys_setKey m k v

theorem mkeys_buildPropMap (q : ContactQuery) (org : Org) :
    mkeys (buildPropMap q org) = propsOf q := by
  simp only [buildPropMap, SEARCHABLE_ATTRIBUTES, SEARCHABLE_SCHEMES, List.foldl]
  rw [mkeys_guardStep, mkeys_guardStep, mkeys_guardStep, mkeys_foldFields]
  show ((propsOf q).map (fun p => (p, none))).map (fun kv => kv.1) = propsOf q
  have key : ∀ l : List String,
      ((l.map (fun p => (p, (none : Option PropEntry)))).map (fun kv => kv.1)) = l := by
    intro l
    induction l with
    | nil => rfl
    | cons s rest ih => simp [ih]
  exact key _

theorem mval_of_mem_nodup :
    ∀ (l : List (String × Option PropEntry)), (mkeys l).Nodup →
    ∀ kv ∈ l, mval l kv.1 = some kv.2 := by
  intro l
  induction l with
  | nil => intro _ kv hkv; cases hkv
  | cons a m ih =>
    intro hnd kv hkv
    have hnd' : a.1 ∉ mkeys m ∧ (mkeys m).Nodup := by
      have : mkeys (a :: m) = a.1 :: mkeys m := rfl
      rw [this] at hnd
      exact ⟨(List.nodup_cons.mp hnd).1, (List.nodup_cons.mp hnd).2⟩
    cases hkv with
    | head => simp [mval]
    | tail _ hkv =>
      by_cases hk : a.1 = kv.1
      · exact absurd (by rw [hk]; exact List.mem_map_of_mem _ hkv) hnd'.1
      · simp only [mval, beq_iff_eq, if_neg hk]
        exact ih hnd'.2 kv hkv

theorem get_prop_map_ok_of (qq : ContactQuery) (org : Org)
    (h : ∀ k ∈ propsOf qq, (resolveProp org k).isSome = true) :
    (qq.get_prop_map org).isOk = true := by
  rw [get_prop_map_eq, finishPropMap_ok_iff]
  intro kv hkv
  have hk1 : kv.1 ∈ propsOf qq := by
    rw [← mkeys_buildPropMap qq org]
    exact List.mem_map_of_mem _ hkv
  have hnd : (mkeys (buildPropMap qq org)).Nodup := by
    rw [mkeys_buildPropMap]
    exact dedupFirst_nodup _
  have hmv := mval_of_mem_nodup _ hnd kv hkv
  rw [mval_buildPropMap, if_pos hk1] at hmv
  have h2 : resolveProp org kv.1 = kv.2 := by
    injection hmv
  rw [← h2]
  exact h kv.1 hk1

theorem resolveProp_isSome_of_ok (qq : ContactQuery) (org : Org)
    (h : (qq.get_prop_map org).isOk = true) :
    ∀ k ∈ propsOf qq, (resolveProp org k).isSome = true := by
  intro k hk
  have hmv : mval (buildPropMap qq org) k = some (resolveProp org k) := by
    rw [mval_buildPropMap, if_pos hk]
  have hmem := mval_mem _ _ _ hmv
  rw [get_prop_map_eq, finishPropMap_ok_iff] at h
  exact h _ hmem

/-- Compilation only consults the property map through lookups, so two maps
agreeing on every lookup compile every node identically. -/
theorem as_query_pm_ext (org : Org) {pm1 pm2 : List (String × PropEntry)}
    (hpm : ∀ k, pmLookup pm1 k = pmLookup pm2 k) :
    ∀ t, QueryNode.as_query org pm1 t = QueryNode.as_query org pm2 t := by
  intro t
  induction t using queryNodeRec
    (L := fun l => mapAsQuery org pm1 l = mapAsQuery org pm2 l) with
  | condition p c v =>
    show condition_as_query org pm1 p c v = condition_as_query org pm2 p c v
    rw [condition_as_query, condition_as_query, hpm p]
  | boolComb op cs ih => simp only [QueryNode.as_query, ih]
  | singlePropComb p op cs ih => simp only [QueryNode.as_query, hpm p, ih]
  | nil => rfl
  | cons c cs ihc ihcs => simp only [mapAsQuery, ihc, ihcs]

theorem propsOf_optimized (t : QueryNode) (k : String) :
    k ∈ propsOf (ContactQuery.mk t).optimized ↔ k ∈ propsOf (ContactQuery.mk t) := by
  show k ∈ propsOf ⟨(QueryNode.simplify t).split_by_prop⟩ ↔ _
  simp only [propsOf, mem_dedupFirst, List.mem_filter]
  constructor
  · rintro ⟨hmem, hne⟩
    refine ⟨?_, hne⟩
    rw [mem_names_split, get_prop_names_simplify] at hmem
    exact hmem
  · rintro ⟨hmem, hne⟩
    refine ⟨?_, hne⟩
    rw [mem_names_split, get_prop_names_simplify]
    exact hmem

/-- C1 (amended): on the trees the parser can produce (no
`SinglePropCombination` nodes), whenever the unoptimized query compiles and
the optimized tree avoids the two unsafe regroupings (no
`SinglePropCombination` over the implicit property and no empty-string
equality child — `spcSafe`), the optimized query also compiles, and on every
value store holding at most one value row per contact and field it selects
exactly the same contacts.  (The unrestricted claim is false: see
`C1_counterexample`, where the empty-string absence special case is bypassed
by the grouping, and `C2_implicit_grouping_bug` for the implicit-property
`KeyError`; on stores with several rows per contact and field the grouped
single-row AND is also stronger than the separate per-child sub-queries.) -/
theorem C1_optimizer_equivalence (t : QueryNode) (org : Org) (q : Q)
    (hn : noSPC t = true)
    (hs : spcSafe (QueryNode.split_by_prop (QueryNode.simplify t)) = true)
    (hok : (ContactQuery.mk t).as_query org = .ok q) :
    ∃ q', (ContactQuery.mk t).optimized.as_query org = .ok q' ∧
      ∀ db ct, OneValuePerField db → q'.eval db ct = q.eval db ct := by
  have hok' := hok
  rw [ContactQuery.as_query] at hok'
  cases hpm : (ContactQuery.mk t).get_prop_map org with
  | error e =>
    rw [hpm] at hok'
    cases hok'
  | ok pm =>
    rw [hpm] at hok'
    simp only [ebind_ok] at hok'
    have hprop : ∀ k, k ∈ propsOf (ContactQuery.mk t).optimized ↔
        k ∈ propsOf (ContactQuery.mk t) := propsOf_optimized t
    have hokopt : ((ContactQuery.mk t).optimized.get_prop_map org).isOk = true := by
      apply get_prop_map_ok_of
      intro k hk
      exact resolveProp_isSome_of_ok _ org (by rw [hpm]; rfl) k ((hprop k).mp hk)
    obtain ⟨pm2, hpm2⟩ := except_isOk_exists.mp hokopt
    have hlk : ∀ k, pmLookup pm2 k = pmLookup pm k := by
      intro k
      rw [get_prop_map_lookup hpm2 k, get_prop_map_lookup hpm k]
      by_cases hk : k ∈ propsOf (ContactQuery.mk t)
      · rw [if_pos hk, if_pos ((hprop k).mpr hk)]
      · rw [if_neg hk, if_neg (fun hh => hk ((hprop k).mp hh))]
    have hokq : (QueryNode.as_query org pm t).isOk = true := by
      rw [hok']
      rfl
    have hdb0 : OneValuePerField ⟨[], [], []⟩ := by
      intro r1 h1 r2 h2 _ _
      cases h1
    obtain ⟨hsimp_ok, _⟩ := simplify_ok_eval org pm ⟨[], [], []⟩ ⟨0, none⟩ t hn hokq
    obtain ⟨hsplit_ok, _⟩ := split_ok_eval org pm ⟨[], [], []⟩ ⟨0, none⟩ hdb0
      (QueryNode.simplify t) (noSPC_simplify t hn) hs hsimp_ok
    obtain ⟨q2, hq2⟩ := except_isOk_exists.mp hsplit_ok
    refine ⟨q2, ?_, ?_⟩
    · rw [ContactQuery.as_query, hpm2]
      simp only [ebind_ok]
      show QueryNode.as_query org pm2 (QueryNode.split_by_prop (QueryNode.simplify t)) = _
      rw [as_query_pm_ext org hlk]
      exact hq2
    · intro db ct hdb
      obtain ⟨_, hev1⟩ := simplify_ok_eval org pm db ct t hn hokq
      obtain ⟨_, hev2⟩ := split_ok_eval org pm db ct hdb (QueryNode.simplify t)
        (noSPC_simplify t hn) hs hsimp_ok
      have hq2' : getOkQ (QueryNode.as_query org pm
          (QueryNode.split_by_prop (QueryNode.simplify t))) = q2 := by
        rw [hq2]
        rfl
      have hqq : getOkQ (QueryNode.as_query org pm t) = q := by
        rw [hok']
        rfl
      calc q2.eval db ct
          = evalChild org pm db ct (QueryNode.split_by_prop (QueryNode.simplify t)) := by
            rw [evalChild, hq2']
        _ = evalChild org pm db ct (QueryNode.simplify t) := hev2
        _ = evalChild org pm db ct t := hev1
        _ = q.eval db ct := by rw [evalChild, hqq]

/-- Witness for C1_optimizer_equivalence: `email = a AND email ~ b` on the
example organization. -/
theorem C1_witness :
    ∃ q', (ContactQuery.mk (.boolComb .and [.condition "email" "=" "a",
        .condition "email" "~" "b"])).optimized.as_query exOrg = .ok q' ∧
      ∀ db ct, OneValuePerField db → q'.eval db ct =
        (Q.and
          (Q.value_in (VQ.filt [.contact_field exFieldEmail, .string_value .iexact "a"]))
          (Q.value_in (VQ.filt
            [.contact_field exFieldEmail, .string_value .icontains "b"]))).eval db ct :=
  C1_optimizer_equivalence
    (.boolComb .and [.condition "email" "=" "a", .condition "email" "~" "b"]) exOrg
    (Q.and
      (Q.value_in (VQ.filt [.contact_field exFieldEmail, .string_value .iexact "a"]))
      (Q.value_in (VQ.filt [.contact_field exFieldEmail, .string_value .icontains "b"])))
    (by decide) (by decide) rfl

end TembaSearch
